import Mathlib

/-!
Verification of the deterministic task-graph synthesis and validation engine
of the Project-Manager repository (taskMaker core).

Strings are modelled as `List Char` (one element per code point).  JavaScript
regular-expression behaviour (multiline anchors, greedy quantifiers with
backtracking, `matchAll` restart at the end of the previous match) is embedded
directly for the three fixed patterns the source uses.
-/

namespace TaskMaker

/-- Code points of a Lean string literal, used to write `List Char` constants. -/
def chars (s : String) : List Char := s.data

/-- JavaScript line terminators (ECMA-262 LineTerminator). -/
def isLineTerm (c : Char) : Bool :=
  c = '\n' || c = '\r' || c = Char.ofNat 0x2028 || c = Char.ofNat 0x2029

/-- JavaScript `\s` / WhiteSpace ∪ LineTerminator class (also used by `trim`). -/
def jsWS (c : Char) : Bool :=
  c = ' ' || c = '\t' || c = '\n' || c = '\r' ||
  c = Char.ofNat 0x0B || c = Char.ofNat 0x0C || c = Char.ofNat 0xA0 ||
  c = Char.ofNat 0x1680 || (Char.ofNat 0x2000 ≤ c && c ≤ Char.ofNat 0x200A) ||
  c = Char.ofNat 0x2028 || c = Char.ofNat 0x2029 || c = Char.ofNat 0x202F ||
  c = Char.ofNat 0x205F || c = Char.ofNat 0x3000 || c = Char.ofNat 0xFEFF

/-- JavaScript `String.prototype.trim`: strip `jsWS` from both ends. -/
def jsTrim (l : List Char) : List Char :=
  ((l.dropWhile jsWS).reverse.dropWhile jsWS).reverse

/-- Length of the maximal `\s` run at the head of the suffix. -/
def wsRunLen : List Char → Nat
  | [] => 0
  | c :: r => if jsWS c then wsRunLen r + 1 else 0

/-- Length of the maximal run of `.`-matchable (non-line-terminator) chars. -/
def ntermRunLen : List Char → Nat
  | [] => 0
  | c :: r => if isLineTerm c then 0 else ntermRunLen r + 1

/-- Backtracking search for `\s+(.+)$` at the head of `suffix`: try the
whitespace-run length `s` from its greedy maximum downwards; `(.+)` then
greedily takes the maximal non-terminator run, which `$` always closes.
Returns (consumed length, capture group). -/
def tryTail : Nat → List Char → Option (Nat × List Char)
  | 0, _ => none
  | s + 1, suffix =>
    let rest := suffix.drop (s + 1)
    let t := ntermRunLen rest
    if 0 < t then some (s + 1 + t, rest.take t) else tryTail s suffix

/-- Match `\s+(.+)$` at the head of `suffix` (JS greedy semantics). -/
def matchTailFrom (suffix : List Char) : Option (Nat × List Char) :=
  tryTail (wsRunLen suffix) suffix

/-- Body of `^##\s+(.+)$` tried at the head of a suffix (the `^` anchor is
checked by the caller). -/
def headMatchCore : List Char → Option (Nat × List Char)
  | '#' :: '#' :: r => (matchTailFrom r).map (fun p => (p.1 + 2, p.2))
  | _ => none

/-- Body of `^[\s]*[-*+]\s+(.+)$` tried at the head of a suffix. -/
def bulletMatchCore (suffix : List Char) : Option (Nat × List Char) :=
  let k := wsRunLen suffix
  match suffix.drop k with
  | c :: r =>
    if c = '-' || c = '*' || c = '+' then
      (matchTailFrom r).map (fun p => (k + 1 + p.1, p.2))
    else none
  | [] => none

/-- Length of the maximal `\d` run at the head of the suffix. -/
def digitRunLen : List Char → Nat
  | [] => 0
  | c :: r => if c.isDigit then digitRunLen r + 1 else 0

/-- Body of `^[\s]*\d+\.\s+(.+)$` tried at the head of a suffix. -/
def orderedMatchCore (suffix : List Char) : Option (Nat × List Char) :=
  let k := wsRunLen suffix
  let r1 := suffix.drop k
  let d := digitRunLen r1
  if d = 0 then none
  else
    match r1.drop d with
    | '.' :: r2 => (matchTailFrom r2).map (fun p => (k + d + 1 + p.1, p.2))
    | _ => none

/-- Multiline `^`: position 0 or just after a line terminator. -/
def lineStart (text : List Char) (p : Nat) : Bool :=
  p = 0 ||
    (match text.get? (p - 1) with
     | some c => isLineTerm c
     | none => false)

/-- Try one of the anchored patterns at absolute position `p`. -/
def matchAt (core : List Char → Option (Nat × List Char)) (text : List Char)
    (p : Nat) : Option (Nat × List Char) :=
  if lineStart text p then core (text.drop p) else none

/-- First match at a position ≥ `s` (the scan a single `RegExp` exec does).
`fuel` bounds the scan; callers pass `text.length + 1 - s` or more. -/
def findFrom (core : List Char → Option (Nat × List Char)) (text : List Char) :
    Nat → Nat → Option (Nat × Nat × List Char)
  | 0, _ => none
  | fuel + 1, s =>
    if text.length < s then none
    else
      match matchAt core text s with
      | some (len, cap) => some (s, len, cap)
      | none => findFrom core text fuel (s + 1)

/-- All matches from position `s` on, in order (JS `matchAll`): after a match
the scan restarts at the first index past it.  `fuel` bounds the number of
matches; every match is nonempty, so `text.length + 1` always suffices. -/
def matchAllFrom (core : List Char → Option (Nat × List Char)) (text : List Char) :
    Nat → Nat → List (Nat × Nat × List Char)
  | 0, _ => []
  | fuel + 1, s =>
    match findFrom core text (text.length + 1 - s) s with
    | none => []
    | some (i, len, cap) => (i, len, cap) :: matchAllFrom core text fuel (i + len)

/-- All matches of a pattern over the whole text. -/
def matchAll (core : List Char → Option (Nat × List Char)) (text : List Char) :
    List (Nat × Nat × List Char) :=
  matchAllFrom core text (text.length + 1) 0

/-- JS `String.prototype.slice(start, end)` for in-range indices. -/
def jsSlice (l : List Char) (start stop : Nat) : List Char :=
  (l.drop start).take (stop - start)

/-- `Section` of `mock.ts`: title, content and discovery order. -/
structure Sec where
  title : List Char
  content : List Char
  order : Nat
deriving DecidableEq, Repr

/-- Build the section list from the heading-match list
(`MockTaskGenerator.extractSections`, loop body): the title is the trimmed
capture, the content is the trimmed text between the end of this match and
the start of the next (or the end of the document). -/
def buildSecs (text : List Char) : Nat → List (Nat × Nat × List Char) → List Sec
  | _, [] => []
  | k, (i, len, cap) :: rest =>
    let stop := match rest with
      | [] => text.length
      | (i2, _, _) :: _ => i2
    ⟨jsTrim cap, jsTrim (jsSlice text (i + len) stop), k⟩ :: buildSecs text (k + 1) rest

/-- `MockTaskGenerator.extractSections`: find all `^##\s+(.+)$` matches; with
no match the whole (untrimmed) text becomes one "Overview" section. -/
def extractSections (text : List Char) : List Sec :=
  let ms := matchAll headMatchCore text
  if ms.isEmpty then [⟨chars "Overview", text, 0⟩]
  else buildSecs text 0 ms

/-- Insertion-ordered set construction: JS `Array.from(new Set(xs))` keeps the
first occurrence of each element, in order. -/
def firstDedupGo {α : Type} [DecidableEq α] (seen : List α) : List α → List α
  | [] => []
  | a :: l => if a ∈ seen then firstDedupGo seen l else a :: firstDedupGo (a :: seen) l

/-- First-occurrence deduplication (JS `Set` iteration order). -/
def firstDedup {α : Type} [DecidableEq α] (l : List α) : List α :=
  firstDedupGo [] l

/-- `MockTaskGenerator.extractBulletPoints`: unordered-list matches first, then
ordered-list matches, each capture trimmed; deduplicate keeping first
occurrences; drop empties. -/
def extractBulletPoints (content : List Char) : List (List Char) :=
  let un := (matchAll bulletMatchCore content).map (fun m => jsTrim m.2.2)
  let or2 := (matchAll orderedMatchCore content).map (fun m => jsTrim m.2.2)
  (firstDedup (un ++ or2)).filter (fun p => 0 < p.length)

/-- Task record as built by the generator and validators (optional fields of
the schema are carried along; the synthesizer leaves them unset). -/
structure TaskMeta where
  priority : List Char
  risk : List Char
  effort_hours : Rat
  role : List Char
  status : List Char
  created : List Char
  updated : List Char
deriving DecidableEq, Repr

structure Task where
  id : List Char
  title : List Char
  description : Option (List Char) := none
  details : Option (List Char) := none
  testStrategy : Option (List Char) := none
  tags : List (List Char)
  deps : List (List Char)
  steps : List (List Char)
  metadata : Option TaskMeta := none
deriving DecidableEq, Repr

/-- The ids of a task collection, in order. -/
def idsOf (ts : List Task) : List (List Char) := ts.map (fun t => t.id)

/-- Decimal digit character. -/
def digitChar (d : Nat) : Char := Char.ofNat (48 + d)

/-- Decimal digits of `n`, most significant first (JS `Number.toString`).
Structural fuel recursion so that closed terms reduce in the kernel. -/
def natDigitsAux : Nat → Nat → List Char → List Char
  | 0, _, acc => acc
  | fuel + 1, n, acc =>
    if n < 10 then digitChar n :: acc
    else natDigitsAux fuel (n / 10) (digitChar (n % 10) :: acc)

def natToChars (n : Nat) : List Char := natDigitsAux (n + 1) n []

/-- JS `padStart(3, '0')`. -/
def pad3 (l : List Char) : List Char :=
  if 3 ≤ l.length then l else List.replicate (3 - l.length) '0' ++ l

/-- Task id `T-` + counter zero-padded to (at least) 3 digits. -/
def mkId (n : Nat) : List Char := chars "T-" ++ pad3 (natToChars n)

/-- `MockTaskGenerator.generateTaskTitle`. -/
def generateTaskTitle (s : Sec) (existingCount : Nat) : List Char :=
  let suffix :=
    if 0 < existingCount ∧ existingCount % 2 = 0 then chars " - Implementation" else []
  let t := s.title ++ suffix
  let t2 := if t.length < 3 then chars "Task: " ++ t else t
  if 140 < t2.length then t2.take 137 ++ chars "..." else t2

/-- JS `\w` word characters. -/
def isWordChar (c : Char) : Bool :=
  ('a' ≤ c && c ≤ 'z') || ('A' ≤ c && c ≤ 'Z') || c.isDigit || c = '_'

def boundaryB : Option Char → Bool
  | none => true
  | some c => !isWordChar c

/-- Does `\bw\b` match somewhere in the text?  `prev` is the char before the
current position. -/
def hasWordGo (w : List Char) : Option Char → List Char → Bool
  | _, [] => false
  | prev, c :: r =>
    (boundaryB prev && w.isPrefixOf (c :: r) &&
      boundaryB ((List.drop w.length (c :: r)).head?)) ||
    hasWordGo w (some c) r

def hasWord (text w : List Char) : Bool := hasWordGo w none text

/-- Keyword table of `MockTaskGenerator.extractTags`, in source order. -/
def tagTable : List (List Char × List (List Char)) :=
  [ (chars "feature", [chars "feature", chars "implement", chars "add", chars "create", chars "new"]),
    (chars "bug", [chars "fix", chars "bug", chars "issue", chars "error", chars "defect"]),
    (chars "enhancement", [chars "update", chars "improve", chars "enhance", chars "optimize", chars "upgrade"]),
    (chars "testing", [chars "test", chars "testing", chars "qa", chars "quality", chars "coverage"]),
    (chars "documentation", [chars "doc", chars "documentation", chars "readme", chars "guide"]),
    (chars "refactor", [chars "refactor", chars "cleanup", chars "reorganize", chars "restructure"]),
    (chars "api", [chars "api", chars "endpoint", chars "route", chars "rest"]),
    (chars "ui", [chars "ui", chars "interface", chars "frontend", chars "component", chars "design"]) ]

/-- ASCII lowercase (JS `toLowerCase` restricted to ASCII, where they agree). -/
def lowerChars (l : List Char) : List Char := l.map Char.toLower

/-- `MockTaskGenerator.extractTags`. -/
def extractTags (s : Sec) : List (List Char) :=
  let content := lowerChars (s.title ++ [' '] ++ s.content)
  let tags := tagTable.filterMap
    (fun e => if e.2.any (fun w => hasWord content w) then some e.1 else none)
  (firstDedup tags).take 8

/-- `MockTaskGenerator.generateDependencies`. -/
def generateDependencies (s : Sec) (existing : List Task) : List (List Char) :=
  if s.order = 0 ∨ existing.length = 0 then []
  else
    let d1 :=
      if existing.length % 3 = 0 ∧ 0 < existing.length then
        match existing.getLast? with
        | some t => [t.id]
        | none => []
      else []
    let d2 :=
      if 2 < s.order ∧ 2 ≤ existing.length then
        match existing.get? 1 with
        | some t => [t.id]
        | none => []
      else []
    (d1 ++ d2).take 16

/-- The five generic fallback steps. -/
def genericSteps (title : List Char) : List (List Char) :=
  [ chars "Review " ++ title ++ chars " requirements",
    chars "Design solution for " ++ title,
    chars "Implement " ++ title,
    chars "Test " ++ title ++ chars " implementation",
    chars "Document " ++ title ++ chars " changes" ]

/-- `MockTaskGenerator.generateSteps`. -/
def generateSteps (s : Sec) : List (List Char) :=
  let bp := extractBulletPoints s.content
  if 0 < bp.length then bp.take 20 else genericSteps s.title

/-- `MockTaskGenerator.generateTask`. -/
def generateTask (s : Sec) (taskNumber : Nat) (existing : List Task) : Task :=
  { id := mkId taskNumber
    title := generateTaskTitle s existing.length
    tags := extractTags s
    deps := generateDependencies s existing
    steps := generateSteps s }

/-- `MockTaskGenerator.calculateTasksPerSection`. -/
def calculateTasksPerSection (s : Sec) (totalSections : Nat) : Nat :=
  let bp := extractBulletPoints s.content
  if 5 ≤ bp.length then 3
  else if 3 ≤ bp.length then 2
  else if 500 < s.content.length then 2
  else if totalSections ≤ 3 then 2
  else 1

/-- Inner loop of `generateTasksFromSections`: up to `n` tasks for one
section, stopping at the global limit. -/
def genInner (s : Sec) (limit : Nat) : Nat → List Task → Nat → List Task × Nat
  | 0, tasks, counter => (tasks, counter)
  | n + 1, tasks, counter =>
    if tasks.length < limit then
      genInner s limit n (tasks ++ [generateTask s counter tasks]) (counter + 1)
    else (tasks, counter)

/-- Outer loop of `generateTasksFromSections` over the sections. -/
def genLoop (total limit : Nat) : List Sec → List Task → Nat → List Task × Nat
  | [], tasks, counter => (tasks, counter)
  | s :: rest, tasks, counter =>
    if limit ≤ tasks.length then (tasks, counter)
    else
      genLoop total limit rest
        (genInner s limit (calculateTasksPerSection s total) tasks counter).1
        (genInner s limit (calculateTasksPerSection s total) tasks counter).2

/-- Post-loop guard of `generateTasksFromSections`: force one task from the
first section when the loop produced none but sections exist. -/
def forceOne (sections : List Sec) (tasks : List Task) : List Task :=
  match sections, tasks with
  | s0 :: _, [] => [generateTask s0 1 []]
  | _, _ => tasks

/-- `MockTaskGenerator.generateTasksFromSections` (the synthesizer):
`limit := maxTasks ?? 20`; one forced task from the first section if the
loop produced none. -/
def generateTasksFromSections (sections : List Sec) (maxTasks : Option Nat) :
    List Task :=
  forceOne sections (genLoop sections.length (maxTasks.getD 20) sections [] 1).1

/-! ## Business validation rules (`core/validators/rules.ts`) -/

/-- Result of `validateUniqueIds`. -/
structure UniqueIdValidationResult where
  valid : Bool
  duplicates : List (List Char)
deriving DecidableEq, Repr

/-- Lexicographic code-point order on strings (JS default `Array.sort`
comparison for strings without surrogate pairs). -/
def strLe (a b : List Char) : Prop := a ≤ b

instance : DecidableRel strLe := fun a b => by
  unfold strLe; infer_instance

/-- Insertion sort used to model `Array.prototype.sort` on a duplicate-free
string list (any sorted permutation of such a list is unique). -/
def insertSorted (a : List Char) : List (List Char) → List (List Char)
  | [] => [a]
  | b :: l => if strLe a b then a :: b :: l else b :: insertSorted a l

def sortStrs : List (List Char) → List (List Char)
  | [] => []
  | a :: l => insertSorted a (sortStrs l)

/-- Single pass of `validateUniqueIds`: JS `Set` insertion for `seen` and
`dups` (first occurrence kept, insertion order). -/
def uniqScan : List Task → List (List Char) → List (List Char) →
    List (List Char) × List (List Char)
  | [], seen, dups => (seen, dups)
  | t :: r, seen, dups =>
    if t.id ∈ seen then
      uniqScan r seen (if t.id ∈ dups then dups else dups ++ [t.id])
    else uniqScan r (seen ++ [t.id]) dups

/-- `validateUniqueIds` of `rules.ts`. -/
def validateUniqueIds (ts : List Task) : UniqueIdValidationResult :=
  if ts.isEmpty then ⟨true, []⟩
  else
    let p := uniqScan ts [] []
    ⟨p.2.isEmpty, sortStrs p.2⟩

/-- `sanitizeDependencies` of `rules.ts`: drop self references and references
to absent ids; everything else is preserved. -/
def sanitizeDependencies (ts : List Task) : List Task :=
  if ts.isEmpty then []
  else
    ts.map (fun t =>
      { t with deps := t.deps.filter (fun d => ¬(d = t.id) ∧ d ∈ idsOf ts) })

/-- Result of `detectCycles`. -/
structure CycleDetectionResult where
  hasCycle : Bool
  path : Option (List (List Char)) := none
deriving DecidableEq, Repr

/-- The adjacency function the DFS explores: `Map.set` is called once per
task in order, so an id maps to the deps of its last occurrence. -/
def graphOf (ts : List Task) (x : List Char) : List (List Char) :=
  match (ts.filter (fun t => t.id = x)).getLast? with
  | some t => t.deps
  | none => []

/- One DFS step (`dfs` in `detectCycles`) and its dependency loop, with the
`visited` (black) and `visiting` (gray) sets as lists.  `fuel` bounds the
recursion depth; every nested call adds a fresh id to `visiting`, so the
number of tasks plus one always suffices (proved below). -/
mutual

def dfsNode (succs : List Char → List (List Char)) (ids : List (List Char)) :
    Nat → List (List Char) → List (List Char) → List Char → List (List Char) →
    List (List Char) × List (List Char) × Option (List (List Char))
  | 0, visited, visiting, _, _ => (visited, visiting, none)
  | fuel + 1, visited, visiting, nodeId, path =>
    let visiting2 := if nodeId ∈ visiting then visiting else nodeId :: visiting
    match dfsDeps succs ids fuel visited visiting2 (succs nodeId) nodeId path with
    | (v2, g2, some c) => (v2, g2, some c)
    | (v2, g2, none) =>
      ((if nodeId ∈ v2 then v2 else nodeId :: v2), g2.erase nodeId, none)
termination_by fuel _ _ _ _ => (fuel, 0)

def dfsDeps (succs : List Char → List (List Char)) (ids : List (List Char)) :
    Nat → List (List Char) → List (List Char) → List (List Char) → List Char →
    List (List Char) →
    List (List Char) × List (List Char) × Option (List (List Char))
  | _, visited, visiting, [], _, _ => (visited, visiting, none)
  | fuel, visited, visiting, dep :: rest, nodeId, path =>
    if dep ∈ ids then
      if dep ∈ visiting then
        (visited, visiting,
          some (if dep ∈ path then path.dropWhile (fun x => ¬(x = dep)) ++ [dep]
                else path ++ [dep]))
      else if dep ∈ visited then dfsDeps succs ids fuel visited visiting rest nodeId path
      else
        match dfsNode succs ids fuel visited visiting dep (path ++ [dep]) with
        | (v2, g2, some c) => (v2, g2, some c)
        | (v2, g2, none) => dfsDeps succs ids fuel v2 g2 rest nodeId path
    else dfsDeps succs ids fuel visited visiting rest nodeId path
termination_by fuel _ _ deps _ _ => (fuel, deps.length + 1)

end

/-- Main loop of `detectCycles`: run the DFS from every not-yet-black task in
order, threading the black and gray sets. -/
def rootLoop (succs : List Char → List (List Char)) (ids : List (List Char))
    (fuel : Nat) :
    List Task → List (List Char) → List (List Char) → CycleDetectionResult
  | [], _, _ => ⟨false, none⟩
  | t :: rest, visited, visiting =>
    if t.id ∈ visited then rootLoop succs ids fuel rest visited visiting
    else
      match dfsNode succs ids fuel visited visiting t.id [t.id] with
      | (_, _, some c) => ⟨true, some c⟩
      | (v2, g2, none) => rootLoop succs ids fuel rest v2 g2

/-- `detectCycles` of `rules.ts`. -/
def detectCycles (ts : List Task) : CycleDetectionResult :=
  if ts.isEmpty then ⟨false, none⟩
  else
    match ts.find? (fun t => t.id ∈ t.deps) with
    | some t => ⟨true, some [t.id, t.id]⟩
    | none => rootLoop (graphOf ts) (idsOf ts) (ts.length + 1) ts [] []

/-! ### Semantic dependency graph -/

/-- Edge of the graph the DFS explores: from a present id to a present id
through the adjacency of the last occurrence. -/
def EdgeG (ts : List Task) (a b : List Char) : Prop :=
  a ∈ idsOf ts ∧ b ∈ idsOf ts ∧ b ∈ graphOf ts a

/-- Edge as the claims phrase it: `id → dep` for each `dep` of that task that
is an id present in the collection.  Coincides with `EdgeG` when ids are
pairwise distinct. -/
def EdgeT (ts : List Task) (a b : List Char) : Prop :=
  ∃ t ∈ ts, t.id = a ∧ b ∈ t.deps ∧ b ∈ idsOf ts

/-- `p` lists the nodes of a directed cycle (in order, each node once per
lap, the last edge closing back to the head).  A self-loop is `[a]`. -/
def IsCycle (R : List Char → List Char → Prop) : List (List Char) → Prop
  | [] => False
  | x :: xs => List.Chain R x (xs ++ [x])

/-- The dependency graph contains a directed cycle (w.r.t. edge relation `R`). -/
def HasCycle (R : List Char → List Char → Prop) : Prop :=
  ∃ p, IsCycle R p

/-- Edge relation of an abstract adjacency `succs` restricted to `ids`
(the graph the DFS explores). -/
def EdgeS (succs : List Char → List (List Char)) (ids : List (List Char))
    (a b : List Char) : Prop :=
  a ∈ ids ∧ b ∈ ids ∧ b ∈ succs a

/-- The anchored pattern `^[A-Z]-\d{3}$` on a whole string. -/
def idPattern : List Char → Bool
  | [a, b, c, d, e] =>
    ('A' ≤ a && a ≤ 'Z') && b = '-' && c.isDigit && d.isDigit && e.isDigit
  | _ => false

/-- Decimal value of a (supposed) digit character. -/
def digitVal (c : Char) : Nat := c.toNat - 48

/-- Value read back from a padded 3-digit id body (left inverse of the id
body construction on 1..999, used for injectivity). -/
def unpad3 : List Char → Nat
  | [a, b, c] => digitVal a * 100 + digitVal b * 10 + digitVal c
  | _ => 0

/-- Earliest list-item match at a position: unordered marker first, ordered
marker otherwise (at a given position at most one of the two can match). -/
def eitherItemCore (suffix : List Char) : Option (Nat × List Char) :=
  match bulletMatchCore suffix with
  | some r => some r
  | none => orderedMatchCore suffix

/-- Modelled from the spec: the bullet items of a section content "in order
of first appearance in the content" — a single left-to-right scan taking
unordered and ordered list items as they occur, captures trimmed,
deduplicated keeping first occurrences, empties dropped, capped at 20. -/
def specItemsInAppearanceOrder (content : List Char) : List (List Char) :=
  (((firstDedup ((matchAll eitherItemCore content).map (fun m => jsTrim m.2.2)))).filter
      (fun p => 0 < p.length)).take 20

/-- Every task's deps reference only ids of strictly earlier tasks in the
list (the shape the synthesizer produces by construction). -/
def Layered (ts : List Task) : Prop :=
  ∀ i t, ts.get? i = some t → ∀ d ∈ t.deps, d ∈ idsOf (ts.take i)

/-- The black list is a (reverse) topological certificate: each entry's
successors inside `ids` occur strictly later in the list. -/
def TopoList (succs : List Char → List (List Char)) (ids : List (List Char)) :
    List (List Char) → Prop
  | [] => True
  | x :: l => (∀ b ∈ succs x, b ∈ ids → b ∈ l) ∧ TopoList succs ids l

/-- Number of ids not yet gray — the DFS nesting depth still possible. -/
def countFresh (ids visiting : List (List Char)) : Nat :=
  ((ids.dedup).filter (fun x => ¬ x ∈ visiting)).length

/-- Per-task bounds guaranteed by construction (claim C3). -/
def TaskBounds (t : Task) : Prop :=
  1 ≤ t.steps.length ∧ t.steps.length ≤ 20 ∧ t.tags.length ≤ 8 ∧ t.deps.length ≤ 16

/-- Loop invariant of the synthesizer: the counter tracks the accumulator,
ids are `T-001 …` in order, deps are back references, bounds hold. -/
def SynthInv (tasks : List Task) (counter : Nat) : Prop :=
  counter = tasks.length + 1 ∧
  idsOf tasks = (List.range' 1 tasks.length).map mkId ∧
  Layered tasks ∧
  ∀ t ∈ tasks, TaskBounds t

/-! ## Structural validation (`core/validators/tasksSchema.ts`, Zod model) -/

/-- JSON-like runtime values fed to the validators (numbers as rationals:
every finite JS float is one, and the schema comparisons agree on them). -/
inductive JVal where
  | jnull
  | jbool (b : Bool)
  | jnum (q : Rat)
  | jstr (s : List Char)
  | jarr (items : List JVal)
  | jobj (fields : List (List Char × JVal))

/-- One step of a Zod issue path: object key or array index. -/
inductive PathElem where
  | key (k : List Char)
  | idx (i : Nat)
deriving DecidableEq, Repr

/-- A structured `{path, message}` validation issue. -/
structure Issue where
  path : List PathElem
  message : List Char
deriving DecidableEq, Repr

/-- Object field lookup (presence = key in the field list). -/
def jgetField (fields : List (List Char × JVal)) (k : List Char) : Option JVal :=
  (fields.find? (fun f => f.1 = k)).map (fun f => f.2)

def prefixIssues (pe : PathElem) (l : List Issue) : List Issue :=
  l.map (fun i => ⟨pe :: i.path, i.message⟩)

/-- Zod object/tuple combination: collect issues from both sides. -/
def eprod {α β : Type} :
    Except (List Issue) α → Except (List Issue) β → Except (List Issue) (α × β)
  | .ok a, .ok b => .ok (a, b)
  | .ok _, .error e => .error e
  | .error e, .ok _ => .error e
  | .error e, .error f => .error (e ++ f)

/-- `z.string()`. -/
def checkString (v : JVal) : Except (List Issue) (List Char) :=
  match v with
  | .jstr s => .ok s
  | _ => .error [⟨[], chars "Expected string"⟩]

/-- The `id` field schema: string, min 1, max 32, regex `^[A-Z]-\d{3}$`
(all checks run, all failures collected). -/
def checkId (v : JVal) : Except (List Issue) (List Char) :=
  match v with
  | .jstr s =>
    let is :=
      (if s.length < 1 then [⟨[], chars "Task ID cannot be empty"⟩] else []) ++
      (if 32 < s.length then [⟨[], chars "Task ID must be 32 characters or less"⟩] else []) ++
      (if idPattern s then []
       else [⟨[], chars "Task ID must match pattern [A-Z]-[0-9][0-9][0-9] (e.g., T-001, A-042)"⟩])
    if is.isEmpty then .ok s else .error is
  | _ => .error [⟨[], chars "Expected string"⟩]

/-- The `title` field schema: string, min 3, max 140. -/
def checkTitle (v : JVal) : Except (List Issue) (List Char) :=
  match v with
  | .jstr s =>
    let is :=
      (if s.length < 3 then [⟨[], chars "Task title must be at least 3 characters"⟩] else []) ++
      (if 140 < s.length then [⟨[], chars "Task title must be 140 characters or less"⟩] else [])
    if is.isEmpty then .ok s else .error is
  | _ => .error [⟨[], chars "Expected string"⟩]

/-- `z.string().optional()` over an optional field. -/
def checkOptString : Option JVal → Except (List Issue) (Option (List Char))
  | none => .ok none
  | some (.jstr s) => .ok (some s)
  | some _ => .error [⟨[], chars "Expected string"⟩]

/-- Array element loop: issues of element `i` get `i` prefixed to their path. -/
def collectIdx {α : Type} (check : JVal → Except (List Issue) α) :
    Nat → List JVal → Except (List Issue) (List α)
  | _, [] => .ok []
  | i, v :: r =>
    match check v, collectIdx check (i + 1) r with
    | .ok a, .ok l => .ok (a :: l)
    | .ok _, .error e => .error e
    | .error e, .ok _ => .error (prefixIssues (.idx i) e)
    | .error e, .error f => .error (prefixIssues (.idx i) e ++ f)

/-- `z.array(elem).min(…).max(…)`: length issues first, then element issues. -/
def checkArray {α : Type} (elemCheck : JVal → Except (List Issue) α)
    (minB maxB : Option (Nat × List Char)) (v : JVal) :
    Except (List Issue) (List α) :=
  match v with
  | .jarr items =>
    let lenIs :=
      (match minB with
       | some p => if items.length < p.1 then [⟨[], p.2⟩] else []
       | none => []) ++
      (match maxB with
       | some p => if p.1 < items.length then [⟨[], p.2⟩] else []
       | none => [])
    match collectIdx elemCheck 0 items with
    | .ok l => if lenIs.isEmpty then .ok l else .error lenIs
    | .error e => .error (lenIs ++ e)
  | _ => .error [⟨[], chars "Expected array"⟩]

/-- A `steps` element: `z.string().min(1)`. -/
def checkStep (v : JVal) : Except (List Issue) (List Char) :=
  match v with
  | .jstr s =>
    if s.length < 1 then .error [⟨[], chars "Task step cannot be empty"⟩] else .ok s
  | _ => .error [⟨[], chars "Expected string"⟩]

/-- `z.enum(allowed)`. -/
def checkEnum (allowed : List (List Char)) (v : JVal) : Except (List Issue) (List Char) :=
  match v with
  | .jstr s => if s ∈ allowed then .ok s else .error [⟨[], chars "Invalid enum value"⟩]
  | _ => .error [⟨[], chars "Expected string"⟩]

/-- `effort_hours`: `z.number().min(2).max(24)`. -/
def checkEffort (v : JVal) : Except (List Issue) Rat :=
  match v with
  | .jnum q =>
    let is :=
      (if q < 2 then [⟨[], chars "Effort must be at least 2 hours"⟩] else []) ++
      (if 24 < q then [⟨[], chars "Effort must be at most 24 hours"⟩] else [])
    if is.isEmpty then .ok q else .error is
  | _ => .error [⟨[], chars "Expected number"⟩]

/-- `created`/`updated`: `z.string().refine(Date.parse-valid)`, with the
date-validity test kept abstract as `dateOk`. -/
def checkDateStr (dateOk : List Char → Bool) (v : JVal) :
    Except (List Issue) (List Char) :=
  match v with
  | .jstr s =>
    if dateOk s then .ok s
    else .error [⟨[], chars "Timestamp must be valid ISO 8601 format"⟩]
  | _ => .error [⟨[], chars "Expected string"⟩]

/-- A required object field: missing key is a `Required` issue, issues of
the field value get the key prefixed. -/
def fieldE {α : Type} (fields : List (List Char × JVal)) (k : List Char)
    (check : JVal → Except (List Issue) α) : Except (List Issue) α :=
  match jgetField fields k with
  | some v =>
    match check v with
    | .ok a => .ok a
    | .error e => .error (prefixIssues (.key k) e)
  | none => .error [⟨[PathElem.key k], chars "Required"⟩]

/-- An optional (or defaulted) object field. -/
def fieldO {α : Type} (fields : List (List Char × JVal)) (k : List Char)
    (check : Option JVal → Except (List Issue) α) : Except (List Issue) α :=
  match check (jgetField fields k) with
  | .ok a => .ok a
  | .error e => .error (prefixIssues (.key k) e)

def prioVals : List (List Char) := [chars "P0", chars "P1", chars "P2", chars "P3"]
def riskVals : List (List Char) := [chars "low", chars "medium", chars "high"]
def roleVals : List (List Char) :=
  [chars "frontend", chars "backend", chars "infra", chars "qa", chars "pm"]
def statusVals : List (List Char) :=
  [chars "planned", chars "in-progress", chars "completed"]

/-- `TaskMetadataSchema`. -/
def checkMetadataObj (dateOk : List Char → Bool) (v : JVal) :
    Except (List Issue) TaskMeta :=
  match v with
  | .jobj fs =>
    match eprod (fieldE fs (chars "priority") (checkEnum prioVals))
      (eprod (fieldE fs (chars "risk") (checkEnum riskVals))
      (eprod (fieldE fs (chars "effort_hours") checkEffort)
      (eprod (fieldE fs (chars "role") (checkEnum roleVals))
      (eprod (fieldE fs (chars "status") (checkEnum statusVals))
      (eprod (fieldE fs (chars "created") (checkDateStr dateOk))
             (fieldE fs (chars "updated") (checkDateStr dateOk))))))) with
    | .ok r => .ok ⟨r.1, r.2.1, r.2.2.1, r.2.2.2.1, r.2.2.2.2.1, r.2.2.2.2.2.1, r.2.2.2.2.2.2⟩
    | .error es => .error es
  | _ => .error [⟨[], chars "Expected object"⟩]

/-- `TaskMetadataSchema.optional()`. -/
def checkOptMetadata (dateOk : List Char → Bool) :
    Option JVal → Except (List Issue) (Option TaskMeta)
  | none => .ok none
  | some v =>
    match checkMetadataObj dateOk v with
    | .ok m => .ok (some m)
    | .error e => .error e

/-- `TaskSchema` over a runtime value: object with the nine fields of the
schema, unknown keys stripped, `tags`/`deps` defaulting to `[]`. -/
def checkTask (dateOk : List Char → Bool) (v : JVal) : Except (List Issue) Task :=
  match v with
  | .jobj fs =>
    match eprod (fieldE fs (chars "id") checkId)
      (eprod (fieldE fs (chars "title") checkTitle)
      (eprod (fieldO fs (chars "description") checkOptString)
      (eprod (fieldO fs (chars "details") checkOptString)
      (eprod (fieldO fs (chars "testStrategy") checkOptString)
      (eprod (fieldO fs (chars "tags")
        (fun ov => match ov with
          | none => .ok []
          | some w => checkArray checkString none
              (some (8, chars "Tasks cannot have more than 8 tags")) w))
      (eprod (fieldO fs (chars "deps")
        (fun ov => match ov with
          | none => .ok []
          | some w => checkArray checkString none
              (some (16, chars "Tasks cannot have more than 16 dependencies")) w))
      (eprod (fieldE fs (chars "steps")
        (checkArray checkStep (some (1, chars "Tasks must have at least 1 step"))
          (some (20, chars "Tasks cannot have more than 20 steps"))))
             (fieldO fs (chars "metadata") (checkOptMetadata dateOk))))))))) with
    | .ok r =>
      .ok { id := r.1, title := r.2.1, description := r.2.2.1, details := r.2.2.2.1,
            testStrategy := r.2.2.2.2.1, tags := r.2.2.2.2.2.1, deps := r.2.2.2.2.2.2.1,
            steps := r.2.2.2.2.2.2.2.1, metadata := r.2.2.2.2.2.2.2.2 }
    | .error es => .error es
  | _ => .error [⟨[], chars "Expected object"⟩]

/-- Version union value: bare string or `{schema, generator, source_prd?}`. -/
inductive VersionVal where
  | vstr (s : List Char)
  | vinfo (schema : List Char) (generator : List Char) (source_prd : Option (List Char))
deriving DecidableEq, Repr

structure TasksJsonV where
  version : VersionVal
  tasks : List Task
deriving DecidableEq, Repr

/-- `VersionInfoSchema`. -/
def checkVersionInfo (v : JVal) : Except (List Issue) VersionVal :=
  match v with
  | .jobj fs =>
    match eprod (fieldE fs (chars "schema") checkString)
      (eprod (fieldE fs (chars "generator") checkString)
             (fieldO fs (chars "source_prd") checkOptString)) with
    | .ok r => .ok (.vinfo r.1 r.2.1 r.2.2)
    | .error es => .error es
  | _ => .error [⟨[], chars "Expected object"⟩]

/-- `z.union([z.string(), VersionInfoSchema]).default('1.0')`. -/
def checkVersion : Option JVal → Except (List Issue) VersionVal
  | none => .ok (.vstr (chars "1.0"))
  | some v =>
    match v with
    | .jstr s => .ok (.vstr s)
    | _ => checkVersionInfo v

/-- `TasksJsonSchema`: version union (default `'1.0'`), 1–200 tasks. -/
def checkTasksJson (dateOk : List Char → Bool) (v : JVal) :
    Except (List Issue) TasksJsonV :=
  match v with
  | .jobj fs =>
    match eprod (fieldO fs (chars "version") checkVersion)
      (fieldE fs (chars "tasks")
        (checkArray (checkTask dateOk)
          (some (1, chars "TasksJson must contain at least 1 task"))
          (some (200, chars "TasksJson cannot contain more than 200 tasks")))) with
    | .ok r => .ok ⟨r.1, r.2⟩
    | .error es => .error es
  | _ => .error [⟨[], chars "Expected object"⟩]

/-- Zod `safeParse` outcome: a plain value, never an exception. -/
inductive SafeResult (α : Type) where
  | success (data : α)
  | failure (issues : List Issue)
deriving DecidableEq, Repr

/-- `safeParseTask` of `tasksSchema.ts`. -/
def safeParseTask (dateOk : List Char → Bool) (v : JVal) : SafeResult Task :=
  match checkTask dateOk v with
  | .ok t => .success t
  | .error e => .failure e

/-- `parseTask` of `tasksSchema.ts`: the throwing form — an exception is an
`Except.error`. -/
def parseTask (dateOk : List Char → Bool) (v : JVal) : Except (List Issue) Task :=
  match safeParseTask dateOk v with
  | .success t => .ok t
  | .failure e => .error e

/-- `safeParseTasksJson` of `tasksSchema.ts`. -/
def safeParseTasksJson (dateOk : List Char → Bool) (v : JVal) : SafeResult TasksJsonV :=
  match checkTasksJson dateOk v with
  | .ok t => .success t
  | .error e => .failure e

/-- `parseTasksJson` of `tasksSchema.ts`. -/
def parseTasksJson (dateOk : List Char → Bool) (v : JVal) :
    Except (List Issue) TasksJsonV :=
  match safeParseTasksJson dateOk v with
  | .success t => .ok t
  | .failure e => .error e

/-- Field bounds of the data model on an accepted task (claim C4). -/
def TaskFieldBounds (t : Task) : Prop :=
  idPattern t.id = true ∧ 1 ≤ t.id.length ∧ t.id.length ≤ 32 ∧
  3 ≤ t.title.length ∧ t.title.length ≤ 140 ∧
  t.tags.length ≤ 8 ∧ t.deps.length ≤ 16 ∧
  1 ≤ t.steps.length ∧ t.steps.length ≤ 20 ∧ (∀ s ∈ t.steps, s ≠ []) ∧
  ∀ m, t.metadata = some m →
    m.priority ∈ prioVals ∧ m.risk ∈ riskVals ∧
    2 ≤ m.effort_hours ∧ m.effort_hours ≤ 24 ∧
    m.role ∈ roleVals ∧ m.status ∈ statusVals

/-- Index of the first occurrence of a string in a list (0-based; the list
length if absent). -/
def idxOf (a : List Char) : List (List Char) → Nat
  | [] => 0
  | b :: l => if b = a then 0 else idxOf a l + 1

/-- Postcondition of one `dfs` call: a cycle report is semantically sound,
and a clean return restores the gray set, blackens the node, and keeps the
black list a topological certificate. -/
def NodePost (succs : List Char → List (List Char)) (ids : List (List Char))
    (visited visiting : List (List Char)) (nodeId : List Char)
    (r : List (List Char) × List (List Char) × Option (List (List Char))) : Prop :=
  match r.2.2 with
  | some _ => HasCycle (EdgeS succs ids)
  | none =>
    r.2.1 = visiting ∧ (∀ x ∈ visited, x ∈ r.1) ∧ nodeId ∈ r.1 ∧ r.1.Nodup ∧
    (∀ x ∈ r.1, x ∈ ids) ∧ (∀ x ∈ r.1, ¬ x ∈ visiting) ∧ TopoList succs ids r.1

/-- Postcondition of the dependency loop: like `NodePost`, and additionally
every processed dependency inside `ids` ends up black. -/
def DepsPost (succs : List Char → List (List Char)) (ids : List (List Char))
    (visited visiting : List (List Char)) (deps : List (List Char))
    (r : List (List Char) × List (List Char) × Option (List (List Char))) : Prop :=
  match r.2.2 with
  | some _ => HasCycle (EdgeS succs ids)
  | none =>
    r.2.1 = visiting ∧ (∀ x ∈ visited, x ∈ r.1) ∧ r.1.Nodup ∧
    (∀ x ∈ r.1, x ∈ ids) ∧ (∀ x ∈ r.1, ¬ x ∈ visiting) ∧ TopoList succs ids r.1 ∧
    (∀ b ∈ deps, b ∈ ids → b ∈ r.1)

/-- Concrete two-task collection with a dependency cycle T-001 → T-002 → T-001
(used to instantiate the cycle-detection specification). -/
def exTasksCycle : List Task :=
  [⟨chars "T-001", chars "First task", none, none, none, [], [chars "T-002"],
      [chars "step"], none⟩,
   ⟨chars "T-002", chars "Second task", none, none, none, [], [chars "T-001"],
      [chars "step"], none⟩]

/-- Shared state invariant of the DFS: both color sets are duplicate-free
lists of known ids, and black and gray are disjoint. -/
def DfsInv (ids visited visiting : List (List Char)) : Prop :=
  visiting.Nodup ∧ visited.Nodup ∧ (∀ x ∈ visited, ¬ x ∈ visiting) ∧
  (∀ x ∈ visiting, x ∈ ids) ∧ (∀ x ∈ visited, x ∈ ids)

/-- The full specification of `dfsNode` at a given fuel. -/
def NodeGood (succs : List Char → List (List Char)) (ids : List (List Char))
    (fuel : Nat) : Prop :=
  ∀ visited visiting nodeId path,
    countFresh ids visiting < fuel → nodeId ∈ ids →
    ¬ nodeId ∈ visited → ¬ nodeId ∈ visiting →
    DfsInv ids visited visiting → TopoList succs ids visited →
    path.getLast? = some nodeId → List.Chain' (EdgeS succs ids) path →
    (∀ x, x ∈ path ↔ (x ∈ visiting ∨ x = nodeId)) →
    NodePost succs ids visited visiting nodeId
      (dfsNode succs ids fuel visited visiting nodeId path)

/-- The full specification of `dfsDeps` at a given fuel. -/
def DepsGood (succs : List Char → List (List Char)) (ids : List (List Char))
    (fuel : Nat) : Prop :=
  ∀ visited visiting deps nodeId path,
    countFresh ids visiting < fuel → nodeId ∈ visiting → nodeId ∈ ids →
    (∀ b ∈ deps, b ∈ succs nodeId) →
    DfsInv ids visited visiting → TopoList succs ids visited →
    path.getLast? = some nodeId → List.Chain' (EdgeS succs ids) path →
    (∀ x, x ∈ path ↔ x ∈ visiting) →
    DepsPost succs ids visited visiting deps
      (dfsDeps succs ids fuel visited visiting deps nodeId path)

/-! ## Dependency sanitization (claim C8) -/

theorem sanitizeDependencies_eq_map (ts : List Task) :
    sanitizeDependencies ts =
      ts.map (fun t =>
        { t with deps := t.deps.filter (fun d => ¬(d = t.id) ∧ d ∈ idsOf ts) }) := by
  cases ts with
  | nil => rfl
  | cons a l => rfl

theorem idsOf_sanitize (ts : List Task) :
    idsOf (sanitizeDependencies ts) = idsOf ts := by
  rw [sanitizeDependencies_eq_map]
  simp only [idsOf, List.map_map]
  rfl

theorem sanitize_length (ts : List Task) :
    (sanitizeDependencies ts).length = ts.length := by
  rw [sanitizeDependencies_eq_map, List.length_map]

/-- C8: dependency sanitization is idempotent, preserves the collection
length, and never lengthens any task's deps array. -/
theorem sanitize_idempotent_shrinking (ts : List Task) :
    sanitizeDependencies (sanitizeDependencies ts) = sanitizeDependencies ts ∧
    (sanitizeDependencies ts).length = ts.length ∧
    ∀ i t1 t2, (sanitizeDependencies ts).get? i = some t1 → ts.get? i = some t2 →
      t1.deps.length ≤ t2.deps.length := by
  refine ⟨?_, sanitize_length ts, ?_⟩
  · have hids : idsOf (sanitizeDependencies ts) = idsOf ts := idsOf_sanitize ts
    rw [sanitizeDependencies_eq_map (sanitizeDependencies ts)]
    rw [hids]
    rw [sanitizeDependencies_eq_map ts, List.map_map]
    apply List.map_congr_left
    intro t _
    simp only [Function.comp]
    congr 1
    rw [List.filter_filter]
    apply List.filter_congr
    intro d _
    simp
  · intro i t1 t2 h1 h2
    rw [sanitizeDependencies_eq_map ts, List.get?_map, h2] at h1
    simp only [Option.map_some', Option.some.injEq] at h1
    subst h1
    exact List.length_filter_le _ _

/-! ## Unique-id validation (claim C9) -/

theorem insertSorted_perm (a : List Char) (l : List (List Char)) :
    (insertSorted a l).Perm (a :: l) := by
  induction l with
  | nil => simp [insertSorted]
  | cons b r ih =>
    unfold insertSorted
    by_cases h : strLe a b
    · rw [if_pos h]
    · rw [if_neg h]
      exact (ih.cons b).trans (List.Perm.swap a b r)

theorem sortStrs_perm (l : List (List Char)) : (sortStrs l).Perm l := by
  induction l with
  | nil => simp [sortStrs]
  | cons a r ih =>
    unfold sortStrs
    exact (insertSorted_perm a (sortStrs r)).trans (ih.cons a)

theorem insertSorted_sorted (a : List Char) (l : List (List Char))
    (h : l.Sorted (fun x y => x ≤ y)) :
    (insertSorted a l).Sorted (fun x y => x ≤ y) := by
  induction l with
  | nil => simp [insertSorted]
  | cons b r ih =>
    rw [List.sorted_cons] at h
    unfold insertSorted
    by_cases hab : strLe a b
    · rw [if_pos hab, List.sorted_cons]
      refine ⟨?_, List.sorted_cons.mpr h⟩
      intro x hx
      rcases List.mem_cons.mp hx with rfl | hx
      · exact hab
      · exact le_trans hab (h.1 x hx)
    · rw [if_neg hab, List.sorted_cons]
      refine ⟨?_, ih h.2⟩
      intro x hx
      have hx2 := (insertSorted_perm a r).mem_iff.mp hx
      rcases List.mem_cons.mp hx2 with rfl | hx3
      · exact le_of_not_le hab
      · exact h.1 x hx3

theorem sortStrs_sorted (l : List (List Char)) :
    (sortStrs l).Sorted (fun x y => x ≤ y) := by
  induction l with
  | nil => simp [sortStrs]
  | cons a r ih => exact insertSorted_sorted a (sortStrs r) ih

theorem nodup_iff_count_le (l : List (List Char)) :
    l.Nodup ↔ ∀ x, l.count x ≤ 1 := by
  induction l with
  | nil => simp
  | cons a l ih =>
    rw [List.nodup_cons]
    constructor
    · rintro ⟨ha, hl⟩ x
      rw [List.count_cons]
      by_cases h : a = x
      · subst h
        have : l.count a = 0 := List.count_eq_zero.mpr ha
        simp [this]
      · have := (ih.mp hl) x
        simp only [beq_iff_eq, h, if_false]
        omega
    · intro h
      constructor
      · have := h a
        rw [List.count_cons] at this
        simp only [beq_self_eq_true, if_true] at this
        have hz : l.count a = 0 := by omega
        exact List.count_eq_zero.mp hz
      · apply ih.mpr
        intro x
        have := h x
        rw [List.count_cons] at this
        omega

theorem uniqScan_mem (r : List Task) :
    ∀ seen dups x,
      x ∈ (uniqScan r seen dups).2 ↔
        x ∈ dups ∨ (x ∈ seen ∧ 1 ≤ (idsOf r).count x) ∨ 2 ≤ (idsOf r).count x := by
  induction r with
  | nil =>
    intro seen dups x
    simp [uniqScan, idsOf]
  | cons t r ih =>
    intro seen dups x
    have hcnt : (idsOf (t :: r)).count x =
        (if t.id = x then 1 else 0) + (idsOf r).count x := by
      show List.count x (t.id :: idsOf r) = _
      rw [List.count_cons]
      by_cases h : t.id = x
      · simp only [h, if_pos rfl, beq_self_eq_true, if_true]
        omega
      · simp [h]
    by_cases hs : t.id ∈ seen
    · have hstep : uniqScan (t :: r) seen dups =
          uniqScan r seen (if t.id ∈ dups then dups else dups ++ [t.id]) := by
        simp [uniqScan, hs]
      rw [hstep, ih, hcnt]
      by_cases hx : t.id = x
      · subst hx
        have hd2 : t.id ∈ (if t.id ∈ dups then dups else dups ++ [t.id]) := by
          by_cases hd : t.id ∈ dups <;> simp [hd]
        refine iff_of_true (Or.inl hd2) ?_
        right; left
        exact ⟨hs, by simp⟩
      · have hd2 : (x ∈ (if t.id ∈ dups then dups else dups ++ [t.id])) ↔ x ∈ dups := by
          by_cases hd : t.id ∈ dups
          · rw [if_pos hd]
          · rw [if_neg hd]
            simp only [List.mem_append, List.mem_singleton]
            constructor
            · rintro (h | h)
              · exact h
              · exact absurd h.symm hx
            · exact Or.inl
        rw [hd2, if_neg hx]
        simp
    · have hstep : uniqScan (t :: r) seen dups = uniqScan r (seen ++ [t.id]) dups := by
        simp [uniqScan, hs]
      rw [hstep, ih, hcnt]
      by_cases hx : t.id = x
      · subst hx
        rw [if_pos rfl]
        have hseen2 : t.id ∈ seen ++ [t.id] := by simp
        constructor
        · rintro (h | ⟨h1, h2⟩ | h)
          · exact Or.inl h
          · right; right; omega
          · right; right; omega
        · rintro (h | ⟨h1, h2⟩ | h)
          · exact Or.inl h
          · exact absurd h1 hs
          · right; left
            exact ⟨hseen2, by omega⟩
      · have hseen2 : (x ∈ seen ++ [t.id]) ↔ x ∈ seen := by
          simp only [List.mem_append, List.mem_singleton]
          constructor
          · rintro (h | h)
            · exact h
            · exact absurd h.symm hx
          · exact Or.inl
        rw [hseen2, if_neg hx]
        simp

theorem uniqScan_nodup (r : List Task) :
    ∀ seen dups, dups.Nodup → (uniqScan r seen dups).2.Nodup := by
  induction r with
  | nil => intro seen dups h; exact h
  | cons t r ih =>
    intro seen dups h
    by_cases hs : t.id ∈ seen
    · have hstep : uniqScan (t :: r) seen dups =
          uniqScan r seen (if t.id ∈ dups then dups else dups ++ [t.id]) := by
        simp [uniqScan, hs]
      rw [hstep]
      apply ih
      by_cases hd : t.id ∈ dups
      · rw [if_pos hd]; exact h
      · rw [if_neg hd, List.nodup_append]
        exact ⟨h, List.nodup_singleton _, List.disjoint_singleton.mpr hd⟩
    · have hstep : uniqScan (t :: r) seen dups = uniqScan r (seen ++ [t.id]) dups := by
        simp [uniqScan, hs]
      rw [hstep]
      exact ih _ _ h

/-- C9: `validateUniqueIds` is valid exactly when no id repeats, and
`duplicates` lists each repeated id exactly once, sorted; on two tasks that
share id `T-001` it reports `{valid: false, duplicates: ["T-001"]}`. -/
theorem validateUniqueIds_spec (ts : List Task) :
    ((validateUniqueIds ts).valid = true ↔ (idsOf ts).Nodup) ∧
    (validateUniqueIds ts).duplicates.Sorted (fun a b => a ≤ b) ∧
    (validateUniqueIds ts).duplicates.Nodup ∧
    (∀ x, x ∈ (validateUniqueIds ts).duplicates ↔ 2 ≤ (idsOf ts).count x) ∧
    validateUniqueIds
        [{ id := chars "T-001", title := [], tags := [], deps := [], steps := [] },
         { id := chars "T-001", title := [], tags := [], deps := [], steps := [] }] =
      ⟨false, [chars "T-001"]⟩ := by
  refine ⟨?_, ?_, ?_, ?_, by decide⟩
  · cases ts with
    | nil => simp [validateUniqueIds, idsOf]
    | cons t r =>
      show ((uniqScan (t :: r) [] []).2.isEmpty = true) ↔ _
      rw [List.isEmpty_iff, List.eq_nil_iff_forall_not_mem]
      rw [nodup_iff_count_le]
      constructor
      · intro h a
        by_contra hc
        exact h a ((uniqScan_mem (t :: r) [] [] a).mpr (by right; right; omega))
      · intro h a ha
        rcases (uniqScan_mem (t :: r) [] [] a).mp ha with h1 | ⟨h1, _⟩ | h1
        · exact absurd h1 (List.not_mem_nil a)
        · exact absurd h1 (List.not_mem_nil a)
        · have := h a; omega
  · cases ts with
    | nil =>
      show List.Sorted _ ([] : List (List Char))
      simp
    | cons t r =>
      show (sortStrs (uniqScan (t :: r) [] []).2).Sorted _
      exact sortStrs_sorted _
  · cases ts with
    | nil =>
      show ([] : List (List Char)).Nodup
      simp
    | cons t r =>
      show (sortStrs (uniqScan (t :: r) [] []).2).Nodup
      exact (sortStrs_perm _).nodup_iff.mpr (uniqScan_nodup (t :: r) [] [] (by simp))
  · intro x
    cases ts with
    | nil =>
      show x ∈ ([] : List (List Char)) ↔ _
      simp [idsOf]
    | cons t r =>
      show x ∈ sortStrs (uniqScan (t :: r) [] []).2 ↔ _
      rw [(sortStrs_perm _).mem_iff, uniqScan_mem]
      simp

/-! ## Segmenter: headingless documents (claim C5) -/

theorem matchAt_none_of_gt (core : List Char → Option (Nat × List Char))
    (text : List Char) (p : Nat) (h : text.length < p) :
    matchAt core text p = none := by
  unfold matchAt lineStart
  have h0 : ¬ (p = 0) := by omega
  have h1 : text.get? (p - 1) = none := by
    rw [List.get?_eq_none]
    omega
  rw [h1]
  simp [h0]

theorem findFrom_none_of_all (core : List Char → Option (Nat × List Char))
    (text : List Char) (h : ∀ p, matchAt core text p = none) :
    ∀ f s, findFrom core text f s = none := by
  intro f
  induction f with
  | zero => intro s; rfl
  | succ f ih =>
    intro s
    unfold findFrom
    rw [h s]
    by_cases hs : text.length < s
    · rw [if_pos hs]
    · rw [if_neg hs]
      exact ih (s + 1)

theorem matchAll_nil_of_no_match (core : List Char → Option (Nat × List Char))
    (text : List Char) (h : ∀ p, matchAt core text p = none) :
    matchAll core text = [] := by
  unfold matchAll matchAllFrom
  rw [findFrom_none_of_all core text h]

/-- C5 (amended): on text with no `^##\s+(.+)$` match the segmenter returns
exactly one "Overview" section whose content is the input text unmodified
(the source does not trim it). -/
theorem segment_no_heading (text : List Char)
    (h : ∀ p, matchAt headMatchCore text p = none) :
    extractSections text = [⟨chars "Overview", text, 0⟩] := by
  unfold extractSections
  rw [matchAll_nil_of_no_match headMatchCore text h]
  rfl

/-- C5 counterexample: on the headingless input `" hi "` the content of the
single returned section is the raw input `" hi "`, while the trimmed input
is `"hi"` — the claim's "content equal to the trimmed input" fails. -/
theorem segment_no_heading_counterexample :
    extractSections (chars " hi ") = [⟨chars "Overview", chars " hi ", 0⟩] ∧
    matchAll headMatchCore (chars " hi ") = [] ∧
    ¬ jsTrim (chars " hi ") = chars " hi " := by decide

theorem segment_no_heading_witness :
    extractSections (chars "hello") = [⟨chars "Overview", chars "hello", 0⟩] := by
  apply segment_no_heading
  intro p
  have hb : ∀ q, q ≤ (chars "hello").length →
      matchAt headMatchCore (chars "hello") q = none := by decide
  rcases le_or_lt p (chars "hello").length with hp | hp
  · exact hb p hp
  · exact matchAt_none_of_gt headMatchCore (chars "hello") p hp

/-! ## Synthesized steps (claim C6) -/

/-- C6 counterexample: for the section content `"1. alpha\n- beta"` the
synthesized steps are `["beta", "alpha"]` (all unordered items first), while
the items in order of first appearance in the content are
`["alpha", "beta"]` — the claim's ordering fails. -/
theorem steps_order_counterexample :
    (generateTask ⟨chars "S", chars "1. alpha\n- beta", 0⟩ 1 []).steps =
      [chars "beta", chars "alpha"] ∧
    specItemsInAppearanceOrder (chars "1. alpha\n- beta") =
      [chars "alpha", chars "beta"] ∧
    ¬ ([chars "beta", chars "alpha"] : List (List Char)) =
        [chars "alpha", chars "beta"] := by decide

/-- C6 (amended): the steps of a task synthesized from a section are the
unordered bullet items (in content order) followed by the ordered items (in
content order), captures trimmed, deduplicated keeping first occurrences,
empties dropped, capped at 20; if no item was found, exactly the five
generic `Review/Design/Implement/Test/Document {title}` steps. -/
theorem generateTask_steps_spec (s : Sec) (n : Nat) (ex : List Task) :
    (generateTask s n ex).steps =
      (if 0 < ((firstDedup
            ((matchAll bulletMatchCore s.content).map (fun m => jsTrim m.2.2) ++
             (matchAll orderedMatchCore s.content).map (fun m => jsTrim m.2.2))).filter
            (fun p => 0 < p.length)).length
       then List.take 20 ((firstDedup
            ((matchAll bulletMatchCore s.content).map (fun m => jsTrim m.2.2) ++
             (matchAll orderedMatchCore s.content).map (fun m => jsTrim m.2.2))).filter
            (fun p => 0 < p.length))
       else genericSteps s.title) := rfl

/-! ## Segmenter: the preamble before the first heading (claim C10) -/

theorem findFrom_ge (core : List Char → Option (Nat × List Char)) (text : List Char) :
    ∀ f s i l c, findFrom core text f s = some (i, l, c) → s ≤ i := by
  intro f
  induction f with
  | zero => intro s i l c h; exact absurd h (by simp [findFrom])
  | succ f ih =>
    intro s i l c h
    unfold findFrom at h
    by_cases hs : text.length < s
    · rw [if_pos hs] at h; exact absurd h (by simp)
    · rw [if_neg hs] at h
      cases hm : matchAt core text s with
      | some p =>
        obtain ⟨l2, c2⟩ := p
        rw [hm] at h
        simp only [Option.some.injEq, Prod.mk.injEq] at h
        obtain ⟨rfl, _, _⟩ := h
        omega
      | none =>
        rw [hm] at h
        have := ih (s + 1) i l c h
        omega

theorem findFrom_matchAt (core : List Char → Option (Nat × List Char)) (text : List Char) :
    ∀ f s i l c, findFrom core text f s = some (i, l, c) →
      matchAt core text i = some (l, c) := by
  intro f
  induction f with
  | zero => intro s i l c h; exact absurd h (by simp [findFrom])
  | succ f ih =>
    intro s i l c h
    unfold findFrom at h
    by_cases hs : text.length < s
    · rw [if_pos hs] at h; exact absurd h (by simp)
    · rw [if_neg hs] at h
      cases hm : matchAt core text s with
      | some p =>
        rw [hm] at h
        cases p with
        | mk l2 c2 =>
          simp only [Option.some.injEq, Prod.mk.injEq] at h
          obtain ⟨rfl, rfl, rfl⟩ := h
          exact hm
      | none =>
        rw [hm] at h
        exact ih (s + 1) i l c h

theorem findFrom_le_len (core : List Char → Option (Nat × List Char)) (text : List Char) :
    ∀ f s i l c, findFrom core text f s = some (i, l, c) → i ≤ text.length := by
  intro f
  induction f with
  | zero => intro s i l c h; exact absurd h (by simp [findFrom])
  | succ f ih =>
    intro s i l c h
    unfold findFrom at h
    by_cases hs : text.length < s
    · rw [if_pos hs] at h; exact absurd h (by simp)
    · rw [if_neg hs] at h
      cases hm : matchAt core text s with
      | some p =>
        rw [hm] at h
        cases p with
        | mk l2 c2 =>
          simp only [Option.some.injEq, Prod.mk.injEq] at h
          obtain ⟨rfl, _, _⟩ := h
          omega
      | none =>
        rw [hm] at h
        exact ih (s + 1) i l c h

theorem lineStart_drop (text : List Char) (k p : Nat) (hp : 1 ≤ p) :
    lineStart (text.drop k) p = lineStart text (k + p) := by
  unfold lineStart
  have h0 : ¬ (p = 0) := by omega
  have h0k : ¬ (k + p = 0) := by omega
  have hget : (text.drop k).get? (p - 1) = text.get? (k + p - 1) := by
    rw [List.get?_drop]
    congr 1
    omega
  rw [hget]
  simp [h0, h0k]

theorem matchAt_drop (core : List Char → Option (Nat × List Char))
    (text : List Char) (k p : Nat) (hp : 1 ≤ p) :
    matchAt core (text.drop k) p = matchAt core text (k + p) := by
  unfold matchAt
  rw [lineStart_drop text k p hp, List.drop_drop]

theorem findFrom_drop (core : List Char → Option (Nat × List Char))
    (text : List Char) (k : Nat) :
    ∀ f s, 1 ≤ s →
      findFrom core (text.drop k) f s =
        (findFrom core text f (k + s)).map (fun m => (m.1 - k, m.2)) := by
  intro f
  induction f with
  | zero => intro s _; rfl
  | succ f ih =>
    intro s hs
    unfold findFrom
    have hlen : ((text.drop k).length < s) ↔ (text.length < k + s) := by
      rw [List.length_drop]
      omega
    by_cases hb : text.length < k + s
    · rw [if_pos (hlen.mpr hb), if_pos hb]
      rfl
    · rw [if_neg (fun hc => hb (hlen.mp hc)), if_neg hb]
      rw [matchAt_drop core text k s hs]
      cases hm : matchAt core text (k + s) with
      | some p =>
        obtain ⟨l, c⟩ := p
        simp only [Option.map_some']
        have hks : k + s - k = s := by omega
        rw [hks]
      | none =>
        have h2 := ih (s + 1) (by omega)
        have h3 : k + (s + 1) = k + s + 1 := by omega
        rw [h3] at h2
        exact h2

theorem matchAllFrom_ge (core : List Char → Option (Nat × List Char)) (text : List Char) :
    ∀ f s m, m ∈ matchAllFrom core text f s → s ≤ m.1 := by
  intro f
  induction f with
  | zero => intro s m h; exact absurd h (by simp [matchAllFrom])
  | succ f ih =>
    intro s m h
    unfold matchAllFrom at h
    cases hf : findFrom core text (text.length + 1 - s) s with
    | none => rw [hf] at h; exact absurd h (by simp)
    | some p =>
      rw [hf] at h
      obtain ⟨i, l, c⟩ := p
      rcases List.mem_cons.mp h with rfl | h2
      · exact findFrom_ge core text _ s _ _ _ hf
      · have h3 := ih (i + l) m h2
        have h4 := findFrom_ge core text _ s i l c hf
        omega

/-- One fuel step of match enumeration never matters once the fuel covers the
remaining scan length (matches advance by at least one character). -/
theorem matchAllFrom_stable (core : List Char → Option (Nat × List Char))
    (text : List Char)
    (hcore : ∀ suf n cap, core suf = some (n, cap) → 1 ≤ n) :
    ∀ f g s, text.length + 1 - s ≤ f → text.length + 1 - s ≤ g →
      matchAllFrom core text f s = matchAllFrom core text g s := by
  have haux : ∀ g s, text.length + 1 ≤ s → matchAllFrom core text g s = [] := by
    intro g s hgs
    cases g with
    | zero => rfl
    | succ g =>
      unfold matchAllFrom
      have : text.length + 1 - s = 0 := by omega
      rw [this]
      rfl
  intro f
  induction f with
  | zero =>
    intro g s hf hg
    have hs : text.length + 1 ≤ s := by omega
    rw [haux g s hs]
    cases hf2 : matchAllFrom core text 0 s
    · rfl
    · exact absurd hf2 (by simp [matchAllFrom])
  | succ f ih =>
    intro g s hf hg
    by_cases hs : text.length + 1 ≤ s
    · rw [haux _ s hs, haux _ s hs]
    · have hg1 : 1 ≤ g := by omega
      obtain ⟨g2, rfl⟩ : ∃ g2, g = g2 + 1 := ⟨g - 1, by omega⟩
      unfold matchAllFrom
      cases hfind : findFrom core text (text.length + 1 - s) s with
      | none => rfl
      | some p =>
        obtain ⟨i, l, c⟩ := p
        have hi : s ≤ i := findFrom_ge core text _ s i l c hfind
        have hl : 1 ≤ l := by
          have hm := findFrom_matchAt core text _ s i l c hfind
          unfold matchAt at hm
          by_cases hls : lineStart text i = true
          · rw [if_pos hls] at hm
            exact hcore _ l c hm
          · rw [if_neg hls] at hm
            exact absurd hm (by simp)
        show (i, l, c) :: matchAllFrom core text f (i + l) =
          (i, l, c) :: matchAllFrom core text g2 (i + l)
        rw [ih g2 (i + l) (by omega) (by omega)]

theorem matchAllFrom_drop (core : List Char → Option (Nat × List Char))
    (text : List Char) (k : Nat) (hk : k ≤ text.length)
    (hcore : ∀ suf n cap, core suf = some (n, cap) → 1 ≤ n) :
    ∀ f s, 1 ≤ s →
      matchAllFrom core (text.drop k) f s =
        (matchAllFrom core text f (k + s)).map (fun m => (m.1 - k, m.2)) := by
  intro f
  induction f with
  | zero => intro s _; rfl
  | succ f ih =>
    intro s hs
    unfold matchAllFrom
    have hfuel : (text.drop k).length + 1 - s = text.length + 1 - (k + s) := by
      rw [List.length_drop]
      omega
    rw [hfuel, findFrom_drop core text k _ s hs]
    cases hfind : findFrom core text (text.length + 1 - (k + s)) (k + s) with
    | none => rfl
    | some p =>
      obtain ⟨i, l, c⟩ := p
      have hi : k + s ≤ i := findFrom_ge core text _ _ i l c hfind
      have hl : 1 ≤ l := by
        have hm := findFrom_matchAt core text _ _ i l c hfind
        unfold matchAt at hm
        by_cases hls : lineStart text i = true
        · rw [if_pos hls] at hm
          exact hcore _ l c hm
        · rw [if_neg hls] at hm
          exact absurd hm (by simp)
      show (i - k, l, c) :: matchAllFrom core (text.drop k) f (i - k + l) =
        ((i, l, c) :: matchAllFrom core text f (i + l)).map (fun m => (m.1 - k, m.2))
      simp only [List.map_cons]
      have harg : i - k + l = (i + l) - k := by omega
      rw [harg, ih ((i + l) - k) (by omega)]
      have harg2 : k + ((i + l) - k) = i + l := by omega
      rw [harg2]

theorem tryTail_pos (suffix : List Char) :
    ∀ s n cap, tryTail s suffix = some (n, cap) → 1 ≤ n := by
  intro s
  induction s with
  | zero => intro n cap h; exact absurd h (by simp [tryTail])
  | succ s ih =>
    intro n cap h
    unfold tryTail at h
    by_cases ht : 0 < ntermRunLen (suffix.drop (s + 1))
    · rw [if_pos ht] at h
      simp only [Option.some.injEq, Prod.mk.injEq] at h
      omega
    · rw [if_neg ht] at h
      exact ih n cap h

theorem headMatchCore_pos (suf : List Char) (n : Nat) (cap : List Char)
    (h : headMatchCore suf = some (n, cap)) : 1 ≤ n := by
  unfold headMatchCore at h
  split at h
  · rw [Option.map_eq_some'] at h
    obtain ⟨⟨p1, p2⟩, hp, heq⟩ := h
    simp only [Prod.mk.injEq] at heq
    have := tryTail_pos _ _ p1 p2 hp
    omega
  · exact absurd h (by simp)

theorem buildSecs_shift (text : List Char) (i0 : Nat) :
    ∀ ms : List (Nat × Nat × List Char), (∀ m ∈ ms, i0 ≤ m.1) →
      ∀ j, buildSecs (text.drop i0) j (ms.map (fun m => (m.1 - i0, m.2))) =
        buildSecs text j ms := by
  intro ms
  induction ms with
  | nil => intro _ j; rfl
  | cons m rest ih =>
    intro hge j
    obtain ⟨i, l, c⟩ := m
    have hi : i0 ≤ i := hge (i, l, c) (List.mem_cons_self _ _)
    simp only [List.map_cons]
    unfold buildSecs
    have hcontent : ∀ stop stop2, stop2 = stop - i0 →
        jsSlice (text.drop i0) (i - i0 + l) stop2 = jsSlice text (i + l) stop := by
      intro stop stop2 hst
      unfold jsSlice
      rw [List.drop_drop]
      have h1 : i0 + (i - i0 + l) = i + l := by omega
      rw [h1]
      congr 1
      omega
    cases rest with
    | nil =>
      simp only [List.map_nil]
      have hcont := hcontent text.length (text.drop i0).length (by rw [List.length_drop])
      rw [hcont]
      rfl
    | cons m2 rest2 =>
      obtain ⟨i2, l2, c2⟩ := m2
      have hi2 : i0 ≤ i2 := hge (i2, l2, c2) (List.mem_cons_of_mem _ (List.mem_cons_self _ _))
      simp only [List.map_cons]
      have hcont := hcontent i2 (i2 - i0) rfl
      rw [hcont]
      congr 1
      have := ih (fun m hm => hge m (List.mem_cons_of_mem _ hm)) (j + 1)
      simpa using this

theorem extractSections_eq_build (text : List Char) (m : Nat × Nat × List Char)
    (rest : List (Nat × Nat × List Char))
    (h : matchAll headMatchCore text = m :: rest) :
    extractSections text = buildSecs text 0 (m :: rest) := by
  unfold extractSections
  rw [h]
  rfl

/-- C10: everything before the first `^##\s+(.+)$` match is discarded by the
segmenter — the sections of the text equal the sections of its suffix that
starts at the first heading match, so no preamble character can reach any
returned title or content. -/
theorem preamble_discarded (text : List Char) (i0 l0 : Nat) (c0 : List Char)
    (h : findFrom headMatchCore text (text.length + 1) 0 = some (i0, l0, c0)) :
    extractSections text = extractSections (text.drop i0) := by
  have hmAt : matchAt headMatchCore text i0 = some (l0, c0) :=
    findFrom_matchAt headMatchCore text _ 0 i0 l0 c0 h
  have hi0len : i0 ≤ text.length := findFrom_le_len headMatchCore text _ 0 i0 l0 c0 h
  have hcoreEq : headMatchCore (text.drop i0) = some (l0, c0) := by
    unfold matchAt at hmAt
    by_cases hls : lineStart text i0 = true
    · rw [if_pos hls] at hmAt; exact hmAt
    · rw [if_neg hls] at hmAt; exact absurd hmAt (by simp)
  have hl0 : 1 ≤ l0 := headMatchCore_pos _ _ _ hcoreEq
  -- the match list of the full text
  have hms : matchAll headMatchCore text =
      (i0, l0, c0) :: matchAllFrom headMatchCore text text.length (i0 + l0) := by
    have hstep : matchAll headMatchCore text =
        match findFrom headMatchCore text (text.length + 1 - 0) 0 with
        | none => []
        | some (i, len, cap) =>
          (i, len, cap) :: matchAllFrom headMatchCore text text.length (i + len) := rfl
    have heq0 : text.length + 1 - 0 = text.length + 1 := by omega
    rw [hstep, heq0, h]
  -- the match list of the suffix
  have hms2 : matchAll headMatchCore (text.drop i0) =
      (0, l0, c0) :: matchAllFrom headMatchCore (text.drop i0) (text.drop i0).length l0 := by
    have hstep : matchAll headMatchCore (text.drop i0) =
        match findFrom headMatchCore (text.drop i0) ((text.drop i0).length + 1 - 0) 0 with
        | none => []
        | some (i, len, cap) =>
          (i, len, cap) ::
            matchAllFrom headMatchCore (text.drop i0) (text.drop i0).length (i + len) := rfl
    have hfind0 : findFrom headMatchCore (text.drop i0)
        ((text.drop i0).length + 1 - 0) 0 = some (0, l0, c0) := by
      have hpos : 0 < (text.drop i0).length + 1 - 0 := by omega
      obtain ⟨f2, hf2⟩ : ∃ f2, (text.drop i0).length + 1 - 0 = f2 + 1 :=
        ⟨(text.drop i0).length, by omega⟩
      rw [hf2]
      unfold findFrom
      have hb : ¬ ((text.drop i0).length < 0) := by omega
      rw [if_neg hb]
      have hma : matchAt headMatchCore (text.drop i0) 0 = some (l0, c0) := by
        unfold matchAt lineStart
        simp [hcoreEq]
      rw [hma]
    rw [hstep, hfind0]
    show (0, l0, c0) ::
        matchAllFrom headMatchCore (text.drop i0) (text.drop i0).length (0 + l0) = _
    rw [Nat.zero_add]
  -- tails agree up to the shift
  have htail : matchAllFrom headMatchCore (text.drop i0) (text.drop i0).length l0 =
      (matchAllFrom headMatchCore text text.length (i0 + l0)).map
        (fun m => (m.1 - i0, m.2)) := by
    rw [matchAllFrom_drop headMatchCore text i0 hi0len headMatchCore_pos
      (text.drop i0).length l0 hl0]
    congr 1
    apply matchAllFrom_stable headMatchCore text headMatchCore_pos
    · rw [List.length_drop]; omega
    · omega
  have hge : ∀ m ∈ (i0, l0, c0) :: matchAllFrom headMatchCore text text.length (i0 + l0),
      i0 ≤ m.1 := by
    intro m hm
    rcases List.mem_cons.mp hm with rfl | h2
    · omega
    · have := matchAllFrom_ge headMatchCore text text.length (i0 + l0) m h2
      omega
  have e1 := extractSections_eq_build text (i0, l0, c0) _ hms
  have hms2b : matchAll headMatchCore (text.drop i0) =
      (0, l0, c0) :: (matchAllFrom headMatchCore text text.length (i0 + l0)).map
        (fun m => (m.1 - i0, m.2)) := by
    rw [hms2, htail]
  have e2 := extractSections_eq_build (text.drop i0) (0, l0, c0) _ hms2b
  rw [e1, e2]
  have hmapcons :
      ((i0, l0, c0) :: matchAllFrom headMatchCore text text.length (i0 + l0)).map
        (fun m => (m.1 - i0, m.2)) =
      (0, l0, c0) :: (matchAllFrom headMatchCore text text.length (i0 + l0)).map
        (fun m => (m.1 - i0, m.2)) := by
    simp
  rw [← hmapcons]
  exact (buildSecs_shift text i0 _ hge 0).symm

theorem preamble_discarded_witness :
    extractSections (chars "pre\n## T\nbody") =
      extractSections ((chars "pre\n## T\nbody").drop 4) :=
  preamble_discarded (chars "pre\n## T\nbody") 4 4 (chars "T") (by decide)

/-! ## Synthesizer invariants (claims C1 and C3) -/

theorem digitChar_isDigit (d : Nat) (h : d < 10) : (digitChar d).isDigit = true := by
  interval_cases d <;> decide

theorem digitVal_digitChar (d : Nat) (h : d < 10) : digitVal (digitChar d) = d := by
  interval_cases d <;> decide

theorem natToChars_lt10 (k : Nat) (h : k < 10) : natToChars k = [digitChar k] := by
  unfold natToChars
  simp only [natDigitsAux, if_pos h]

theorem natDigitsAux_step (f n : Nat) (acc : List Char) :
    natDigitsAux (f + 1) n acc =
      if n < 10 then digitChar n :: acc
      else natDigitsAux f (n / 10) (digitChar (n % 10) :: acc) := by
  simp only [natDigitsAux]

theorem natToChars_lt100 (k : Nat) (h1 : 10 ≤ k) (h2 : k < 100) :
    natToChars k = [digitChar (k / 10), digitChar (k % 10)] := by
  obtain ⟨m, rfl⟩ : ∃ m, k = m + 1 := ⟨k - 1, by omega⟩
  unfold natToChars
  rw [natDigitsAux_step, if_neg (by omega), natDigitsAux_step, if_pos (by omega)]

theorem natToChars_lt1000 (k : Nat) (h1 : 100 ≤ k) (h2 : k < 1000) :
    natToChars k = [digitChar (k / 100), digitChar (k / 10 % 10), digitChar (k % 10)] := by
  obtain ⟨p, rfl⟩ : ∃ p, k = p + 1 + 1 := ⟨k - 2, by omega⟩
  unfold natToChars
  rw [natDigitsAux_step, if_neg (by omega), natDigitsAux_step, if_neg (by omega),
    natDigitsAux_step, if_pos (by omega)]
  have hdd : (p + 1 + 1) / 10 / 10 = (p + 1 + 1) / 100 := by
    rw [Nat.div_div_eq_div_mul]
  rw [hdd]

theorem pad3_one (a : Char) : pad3 [a] = ['0', '0', a] := rfl

theorem pad3_two (a b : Char) : pad3 [a, b] = ['0', a, b] := rfl

theorem pad3_three (a b c : Char) : pad3 [a, b, c] = [a, b, c] := rfl

theorem mkId_digits (k : Nat) (h1 : 1 ≤ k) (h2 : k ≤ 999) :
    mkId k = ['T', '-', digitChar (k / 100), digitChar (k / 10 % 10), digitChar (k % 10)] := by
  unfold mkId
  have hz : digitChar 0 = '0' := by decide
  rcases Nat.lt_or_ge k 10 with hk | hk
  · rw [natToChars_lt10 k hk, pad3_one]
    have e1 : k / 100 = 0 := by omega
    have e2 : k / 10 % 10 = 0 := by omega
    have e3 : k % 10 = k := by omega
    rw [e1, e2, e3, hz]
    rfl
  rcases Nat.lt_or_ge k 100 with hk2 | hk2
  · rw [natToChars_lt100 k hk hk2, pad3_two]
    have e1 : k / 100 = 0 := by omega
    have e2 : k / 10 % 10 = k / 10 := by omega
    rw [e1, e2, hz]
    rfl
  · rw [natToChars_lt1000 k hk2 (by omega), pad3_three]
    rfl

theorem idPattern_mkId (k : Nat) (h1 : 1 ≤ k) (h2 : k ≤ 999) :
    idPattern (mkId k) = true := by
  rw [mkId_digits k h1 h2]
  have d1 := digitChar_isDigit (k / 100) (by omega)
  have d2 := digitChar_isDigit (k / 10 % 10) (by omega)
  have d3 := digitChar_isDigit (k % 10) (by omega)
  simp only [idPattern, d1, d2, d3]
  decide

theorem mkId_inj (k j : Nat) (hk1 : 1 ≤ k) (hk2 : k ≤ 999) (hj1 : 1 ≤ j)
    (hj2 : j ≤ 999) (h : mkId k = mkId j) : k = j := by
  rw [mkId_digits k hk1 hk2, mkId_digits j hj1 hj2] at h
  simp only [List.cons.injEq] at h
  have v3 := congrArg digitVal h.2.2.1
  have v4 := congrArg digitVal h.2.2.2.1
  have v5 := congrArg digitVal h.2.2.2.2.1
  rw [digitVal_digitChar (k / 100) (by omega), digitVal_digitChar (j / 100) (by omega)] at v3
  rw [digitVal_digitChar (k / 10 % 10) (by omega),
    digitVal_digitChar (j / 10 % 10) (by omega)] at v4
  rw [digitVal_digitChar (k % 10) (by omega), digitVal_digitChar (j % 10) (by omega)] at v5
  omega

theorem range_mkId_nodup (n : Nat) (h : n ≤ 999) :
    ((List.range' 1 n).map mkId).Nodup := by
  apply List.Nodup.map_on
  · intro x hx y hy hxy
    rw [List.mem_range'_1] at hx hy
    exact mkId_inj x y hx.1 (by omega) hy.1 (by omega) hxy
  · exact List.nodup_range' 1 n

theorem layered_nil : Layered [] := by
  intro i t h d hd
  simp at h

theorem layered_append (ts : List Task) (t : Task) (hl : Layered ts)
    (hd : ∀ d ∈ t.deps, d ∈ idsOf ts) : Layered (ts ++ [t]) := by
  intro i u hget d hdep
  rcases Nat.lt_or_ge i ts.length with hi | hi
  · rw [List.get?_append hi] at hget
    rw [List.take_append_of_le_length (Nat.le_of_lt hi)]
    exact hl i u hget d hdep
  · rw [List.get?_append_right hi] at hget
    have hz : i - ts.length = 0 := by
      by_contra hc
      have : 1 ≤ i - ts.length := by omega
      have : ([t].get? (i - ts.length)) = none := by
        rw [List.get?_eq_none]
        simp
        omega
      rw [this] at hget
      exact absurd hget (by simp)
    rw [hz] at hget
    simp only [List.get?_cons_zero, Option.some.injEq] at hget
    subst hget
    have hieq : i = ts.length := by omega
    rw [hieq, List.take_left]
    exact hd d hdep

theorem generateTask_deps_sub (s : Sec) (n : Nat) (ex : List Task) :
    ∀ d ∈ (generateTask s n ex).deps, d ∈ idsOf ex := by
  intro d hd
  have hd2 : d ∈ generateDependencies s ex := hd
  unfold generateDependencies at hd2
  by_cases hc : s.order = 0 ∨ ex.length = 0
  · rw [if_pos hc] at hd2
    exact absurd hd2 (by simp)
  · rw [if_neg hc] at hd2
    have hd3 := List.take_subset 16 _ hd2
    rcases List.mem_append.mp hd3 with h1 | h1
    · by_cases hb : ex.length % 3 = 0 ∧ 0 < ex.length
      · rw [if_pos hb] at h1
        cases hlast : ex.getLast? with
        | none => rw [hlast] at h1; exact absurd h1 (by simp)
        | some u =>
          rw [hlast] at h1
          simp only [List.mem_singleton] at h1
          subst h1
          have hu : u ∈ ex := List.mem_of_mem_getLast? (by simp [hlast])
          exact List.mem_map.mpr ⟨u, hu, rfl⟩
      · rw [if_neg hb] at h1
        exact absurd h1 (by simp)
    · by_cases hb : 2 < s.order ∧ 2 ≤ ex.length
      · rw [if_pos hb] at h1
        cases hget : ex.get? 1 with
        | none => rw [hget] at h1; exact absurd h1 (by simp)
        | some u =>
          rw [hget] at h1
          simp only [List.mem_singleton] at h1
          subst h1
          have hu : u ∈ ex := List.get?_mem hget
          exact List.mem_map.mpr ⟨u, hu, rfl⟩
      · rw [if_neg hb] at h1
        exact absurd h1 (by simp)

theorem generateTask_bounds (s : Sec) (n : Nat) (ex : List Task) :
    TaskBounds (generateTask s n ex) := by
  unfold TaskBounds
  refine ⟨?_, ?_, ?_, ?_⟩
  · show 1 ≤ (generateSteps s).length
    unfold generateSteps
    by_cases hb : 0 < (extractBulletPoints s.content).length
    · rw [if_pos hb, List.length_take]
      omega
    · rw [if_neg hb]
      show 1 ≤ 5
      omega
  · show (generateSteps s).length ≤ 20
    unfold generateSteps
    by_cases hb : 0 < (extractBulletPoints s.content).length
    · rw [if_pos hb, List.length_take]
      omega
    · rw [if_neg hb]
      show 5 ≤ 20
      omega
  · show (extractTags s).length ≤ 8
    unfold extractTags
    rw [List.length_take]
    omega
  · show (generateDependencies s ex).length ≤ 16
    unfold generateDependencies
    by_cases hc : s.order = 0 ∨ ex.length = 0
    · rw [if_pos hc]
      simp
    · rw [if_neg hc, List.length_take]
      omega

theorem synthInv_step (s : Sec) (tasks : List Task) (counter : Nat)
    (h : SynthInv tasks counter) :
    SynthInv (tasks ++ [generateTask s counter tasks]) (counter + 1) := by
  obtain ⟨hc, hids, hlay, hbnd⟩ := h
  refine ⟨?_, ?_, ?_, ?_⟩
  · rw [List.length_append]
    simp only [List.length_singleton]
    omega
  · unfold idsOf
    rw [List.map_append, List.length_append]
    have hidsv : List.map (fun t => t.id) tasks = (List.range' 1 tasks.length).map mkId := hids
    rw [hidsv]
    have hr : List.range' 1 (tasks.length + [generateTask s counter tasks].length) =
        List.range' 1 tasks.length ++ [1 + tasks.length] := by
      have h0 := @List.range'_concat 1 1 tasks.length
      simpa using h0
    rw [hr, List.map_append]
    congr 1
    show [mkId counter] = [mkId (1 + tasks.length)]
    have hcc : counter = 1 + tasks.length := by omega
    rw [hcc]
  · exact layered_append tasks _ hlay (generateTask_deps_sub s counter tasks)
  · intro t ht
    rcases List.mem_append.mp ht with h1 | h1
    · exact hbnd t h1
    · simp only [List.mem_singleton] at h1
      subst h1
      exact generateTask_bounds s counter tasks

theorem genInner_spec (s : Sec) (limit : Nat) :
    ∀ n tasks counter, SynthInv tasks counter →
      SynthInv (genInner s limit n tasks counter).1 (genInner s limit n tasks counter).2 ∧
      tasks.length ≤ (genInner s limit n tasks counter).1.length ∧
      (genInner s limit n tasks counter).1.length ≤ max tasks.length limit := by
  intro n
  induction n with
  | zero =>
    intro tasks counter h
    exact ⟨h, Nat.le_refl _, Nat.le_max_left _ _⟩
  | succ n ih =>
    intro tasks counter h
    unfold genInner
    by_cases hlt : tasks.length < limit
    · rw [if_pos hlt]
      obtain ⟨h1, h2, h3⟩ := ih (tasks ++ [generateTask s counter tasks]) (counter + 1)
        (synthInv_step s tasks counter h)
      refine ⟨h1, ?_, ?_⟩
      · rw [List.length_append] at h2
        simp only [List.length_cons, List.length_nil] at h2
        omega
      · rw [List.length_append] at h3
        simp only [List.length_cons, List.length_nil] at h3
        omega
    · rw [if_neg hlt]
      exact ⟨h, Nat.le_refl _, Nat.le_max_left _ _⟩

theorem genLoop_spec (total limit : Nat) :
    ∀ secs tasks counter, SynthInv tasks counter →
      SynthInv (genLoop total limit secs tasks counter).1
        (genLoop total limit secs tasks counter).2 ∧
      tasks.length ≤ (genLoop total limit secs tasks counter).1.length ∧
      (genLoop total limit secs tasks counter).1.length ≤ max tasks.length limit := by
  intro secs
  induction secs with
  | nil =>
    intro tasks counter h
    exact ⟨h, Nat.le_refl _, Nat.le_max_left _ _⟩
  | cons s rest ih =>
    intro tasks counter h
    unfold genLoop
    by_cases hge : limit ≤ tasks.length
    · rw [if_pos hge]
      exact ⟨h, Nat.le_refl _, Nat.le_max_left _ _⟩
    · rw [if_neg hge]
      obtain ⟨h1, h2, h3⟩ := genInner_spec s limit (calculateTasksPerSection s total)
        tasks counter h
      obtain ⟨h4, h5, h6⟩ := ih
        (genInner s limit (calculateTasksPerSection s total) tasks counter).1
        (genInner s limit (calculateTasksPerSection s total) tasks counter).2 h1
      refine ⟨h4, by omega, by omega⟩

theorem generateTasksFromSections_spec (sections : List Sec) (maxTasks : Option Nat) :
    SynthInv (generateTasksFromSections sections maxTasks)
      ((generateTasksFromSections sections maxTasks).length + 1) ∧
    (generateTasksFromSections sections maxTasks).length ≤ max (maxTasks.getD 20) 1 ∧
    (¬ sections = [] → 1 ≤ (generateTasksFromSections sections maxTasks).length) := by
  have hinv0 : SynthInv [] 1 := by
    refine ⟨rfl, rfl, layered_nil, ?_⟩
    intro t ht
    exact absurd ht (by simp)
  have hloop := genLoop_spec sections.length (maxTasks.getD 20) sections [] 1 hinv0
  unfold generateTasksFromSections
  cases sections with
  | nil =>
    have hz : (genLoop 0 (maxTasks.getD 20) [] [] 1).1 = [] := rfl
    show SynthInv (forceOne [] (genLoop ([] : List Sec).length (maxTasks.getD 20) [] [] 1).1) _ ∧ _
    rw [show (([] : List Sec).length) = 0 from rfl] at hloop ⊢
    rw [hz] at hloop ⊢
    refine ⟨hloop.1, by simp [forceOne], by simp⟩
  | cons s0 rest =>
    cases hout : (genLoop (s0 :: rest).length (maxTasks.getD 20) (s0 :: rest) [] 1).1 with
    | nil =>
      rw [hout] at hloop
      have hf : forceOne (s0 :: rest) [] = [generateTask s0 1 []] := rfl
      rw [hf]
      have hinv1 : SynthInv [generateTask s0 1 []] 2 := by
        have := synthInv_step s0 [] 1 hinv0
        simpa using this
      refine ⟨?_, ?_, ?_⟩
      · simpa using hinv1
      · simp only [List.length_singleton]
        omega
      · intro _
        simp
    | cons t r =>
      rw [hout] at hloop
      have hf : forceOne (s0 :: rest) (t :: r) = t :: r := rfl
      rw [hf]
      have h1 := hloop.1
      have hcnt := h1.1
      rw [hcnt] at h1
      refine ⟨h1, ?_, ?_⟩
      · have h6 := hloop.2.2
        simp only [List.length_nil] at h6
        omega
      · intro _
        simp

/-- C3 (amended): for every non-empty section list and every maxTasks value
(default 20 when omitted), the synthesizer returns between 1 and
max(maxTasks, 1) tasks — the limit is maxTasks itself, not capped at 20, and
maxTasks = 0 still yields one forced task — and every returned task has
1–20 steps, at most 8 tags and at most 16 deps. -/
theorem synthesize_count_and_bounds (sections : List Sec) (maxTasks : Option Nat)
    (h : ¬ sections = []) :
    1 ≤ (generateTasksFromSections sections maxTasks).length ∧
    (generateTasksFromSections sections maxTasks).length ≤ max (maxTasks.getD 20) 1 ∧
    ∀ t ∈ generateTasksFromSections sections maxTasks,
      1 ≤ t.steps.length ∧ t.steps.length ≤ 20 ∧
      t.tags.length ≤ 8 ∧ t.deps.length ≤ 16 := by
  obtain ⟨hinv, hle, hge⟩ := generateTasksFromSections_spec sections maxTasks
  exact ⟨hge h, hle, fun t ht => hinv.2.2.2 t ht⟩

/-- C3 counterexample: one section and maxTasks = 0 — the synthesizer still
returns one forced task, while the claim's range "between 1 and
min(maxTasks, 20) = 0" is empty. -/
theorem synthesize_count_counterexample :
    (generateTasksFromSections [⟨chars "S", [], 0⟩] (some 0)).length = 1 ∧
    ¬ ((generateTasksFromSections [⟨chars "S", [], 0⟩] (some 0)).length ≤ min 0 20) := by
  decide

theorem synthesize_count_witness :
    1 ≤ (generateTasksFromSections [⟨chars "S", [], 0⟩] none).length ∧
    (generateTasksFromSections [⟨chars "S", [], 0⟩] none).length ≤ max ((none : Option Nat).getD 20) 1 ∧
    ∀ t ∈ generateTasksFromSections [⟨chars "S", [], 0⟩] none,
      1 ≤ t.steps.length ∧ t.steps.length ≤ 20 ∧
      t.tags.length ≤ 8 ∧ t.deps.length ≤ 16 :=
  synthesize_count_and_bounds [⟨chars "S", [], 0⟩] none (by simp)

/-! ## Cycle detection: support lemmas -/

theorem countFresh_cons (ids visiting : List (List Char)) (x : List Char)
    (hx : x ∈ ids) (hg : ¬ x ∈ visiting) :
    countFresh ids (x :: visiting) + 1 ≤ countFresh ids visiting := by
  unfold countFresh
  have hxA : x ∈ ids.dedup.filter (fun y => ¬ y ∈ visiting) := by
    rw [List.mem_filter]
    refine ⟨List.mem_dedup.mpr hx, by simpa using hg⟩
  have hAnd : (ids.dedup.filter (fun y => ¬ y ∈ visiting)).Nodup :=
    (List.nodup_dedup ids).filter _
  have hsplit : ids.dedup.filter (fun y => ¬ y ∈ x :: visiting) =
      (ids.dedup.filter (fun y => ¬ y ∈ visiting)).filter (fun y => y ≠ x) := by
    rw [List.filter_filter]
    apply List.filter_congr
    intro a _
    by_cases h1 : a = x <;> by_cases h2 : a ∈ visiting <;> simp [h1, h2]
  rw [hsplit]
  have herase : (ids.dedup.filter (fun y => ¬ y ∈ visiting)).filter (fun y => y ≠ x) =
      (ids.dedup.filter (fun y => ¬ y ∈ visiting)).erase x := by
    rw [List.Nodup.erase_eq_filter hAnd]
    apply List.filter_congr
    intro a _
    by_cases h1 : a = x <;> simp [h1]
  rw [herase, List.length_erase_of_mem hxA]
  have hpos : 0 < (ids.dedup.filter (fun y => ¬ y ∈ visiting)).length :=
    List.length_pos_of_mem hxA
  omega

theorem countFresh_nil_le (ids : List (List Char)) :
    countFresh ids [] ≤ ids.length := by
  unfold countFresh
  have h1 : (ids.dedup.filter (fun x => ¬ x ∈ ([] : List (List Char)))).length ≤
      ids.dedup.length := List.length_filter_le _ _
  have h2 : ids.dedup.length ≤ ids.length := (List.dedup_sublist ids).length_le
  omega

theorem dropWhile_ne_cons (a : List Char) :
    ∀ l : List (List Char), a ∈ l →
      ∃ t, l.dropWhile (fun x => ¬ (x = a)) = a :: t := by
  intro l
  induction l with
  | nil => intro h; cases h
  | cons b r ih =>
    intro hl
    by_cases hba : b = a
    · subst hba
      exact ⟨r, by simp [List.dropWhile]⟩
    · have hmem : a ∈ r := by
        rcases List.mem_cons.mp hl with h | h
        · exact absurd h.symm hba
        · exact h
      obtain ⟨t, ht⟩ := ih hmem
      refine ⟨t, ?_⟩
      rw [List.dropWhile_cons]
      simp only [hba, decide_not]
      simpa [hba] using ht

theorem dropWhile_is_suffix {α : Type} (p : α → Bool) :
    ∀ l : List α, ∃ t, t ++ l.dropWhile p = l := by
  intro l
  induction l with
  | nil => exact ⟨[], rfl⟩
  | cons b r ih =>
    by_cases hb : p b
    · obtain ⟨t, ht⟩ := ih
      refine ⟨b :: t, ?_⟩
      rw [List.dropWhile_cons, if_pos hb]
      simpa using ht
    · refine ⟨[], ?_⟩
      rw [List.dropWhile_cons, if_neg hb]
      rfl

theorem chain_rank_lt (R : List Char → List Char → Prop) (rank : List Char → Nat)
    (hR : ∀ a b, R a b → rank b < rank a) :
    ∀ (ys : List (List Char)) (a b : List Char),
      List.Chain R a ys → ys.getLast? = some b → rank b < rank a := by
  intro ys
  induction ys with
  | nil => intro a b _ hl; simp at hl
  | cons y ys ih =>
    intro a b hc hl
    rw [List.chain_cons] at hc
    cases ys with
    | nil =>
      simp only [List.getLast?_singleton, Option.some.injEq] at hl
      subst hl
      exact hR a y hc.1
    | cons z zs =>
      have hl2 : (z :: zs).getLast? = some b := by
        rwa [List.getLast?_cons_cons] at hl
      exact lt_trans (ih y b hc.2 hl2) (hR a y hc.1)

theorem no_cycle_of_rank (R : List Char → List Char → Prop) (rank : List Char → Nat)
    (hR : ∀ a b, R a b → rank b < rank a) : ¬ HasCycle R := by
  rintro ⟨p, hp⟩
  cases p with
  | nil => exact hp
  | cons x xs =>
    have hchain : List.Chain R x (xs ++ [x]) := hp
    have hlast : (xs ++ [x]).getLast? = some x := List.getLast?_concat xs
    have := chain_rank_lt R rank hR (xs ++ [x]) x x hchain hlast
    omega

theorem idxOf_cons_self (a : List Char) (l : List (List Char)) :
    idxOf a (a :: l) = 0 := by
  simp [idxOf]

theorem idxOf_cons_ne (a b : List Char) (l : List (List Char)) (h : ¬ b = a) :
    idxOf a (b :: l) = idxOf a l + 1 := by
  simp [idxOf, h]

theorem idxOf_lt_length (a : List Char) :
    ∀ l : List (List Char), a ∈ l → idxOf a l < l.length := by
  intro l
  induction l with
  | nil => intro h; cases h
  | cons b r ih =>
    intro h
    by_cases hb : b = a
    · rw [hb, idxOf_cons_self]
      simp
    · rw [idxOf_cons_ne a b r hb]
      have : a ∈ r := by
        rcases List.mem_cons.mp h with h2 | h2
        · exact absurd h2.symm hb
        · exact h2
      have := ih this
      simp only [List.length_cons]
      omega

theorem topo_idxOf_lt (succs : List Char → List (List Char)) (ids : List (List Char)) :
    ∀ V : List (List Char), TopoList succs ids V → V.Nodup →
      ∀ a b, a ∈ V → b ∈ succs a → b ∈ ids →
        b ∈ V ∧ idxOf a V < idxOf b V := by
  intro V
  induction V with
  | nil => intro _ _ a b ha; cases ha
  | cons x l ih =>
    intro ht hn a b ha hs hb
    obtain ⟨hhead, htail⟩ := ht
    rw [List.nodup_cons] at hn
    rcases List.mem_cons.mp ha with rfl | ha2
    · have hbl : b ∈ l := hhead b hs hb
      have hba : ¬ a = b := fun h => hn.1 (h ▸ hbl)
      refine ⟨List.mem_cons_of_mem _ hbl, ?_⟩
      rw [idxOf_cons_self, idxOf_cons_ne b a l hba]
      omega
    · obtain ⟨hbl, hlt⟩ := ih htail hn.2 a b ha2 hs hb
      have hax : ¬ x = a := fun h => hn.1 (h.symm ▸ ha2)
      have hbx : ¬ x = b := fun h => hn.1 (h.symm ▸ hbl)
      refine ⟨List.mem_cons_of_mem _ hbl, ?_⟩
      rw [idxOf_cons_ne a x l hax, idxOf_cons_ne b x l hbx]
      omega

theorem no_cycle_of_topo_cover (succs : List Char → List (List Char))
    (ids : List (List Char)) (V : List (List Char)) (ht : TopoList succs ids V)
    (hn : V.Nodup) (hcov : ∀ x ∈ ids, x ∈ V) : ¬ HasCycle (EdgeS succs ids) := by
  apply no_cycle_of_rank _ (fun x => V.length - idxOf x V)
  intro a b hab
  obtain ⟨ha, hb, hs⟩ := hab
  obtain ⟨hbV, hlt⟩ := topo_idxOf_lt succs ids V ht hn a b (hcov a ha) hs hb
  have h1 : idxOf b V < V.length := idxOf_lt_length b V hbV
  show V.length - idxOf b V < V.length - idxOf a V
  omega

theorem hasCycle_mono (R S : List Char → List Char → Prop)
    (h : ∀ a b, R a b → S a b) : HasCycle R → HasCycle S := by
  rintro ⟨p, hp⟩
  refine ⟨p, ?_⟩
  cases p with
  | nil => exact hp
  | cons x xs =>
    have hc : List.Chain R x (xs ++ [x]) := hp
    exact List.Chain.imp h hc

theorem depsGood_of_nodeGood (succs : List Char → List (List Char))
    (ids : List (List Char)) (fuel : Nat) (hN : NodeGood succs ids fuel) :
    DepsGood succs ids fuel := by
  intro visited visiting deps
  induction deps generalizing visited with
  | nil =>
    intro nodeId path d1 d2 d3 d4 hInv hTopo d11 d12 d13
    obtain ⟨g5, v6, dis7, g8, v9⟩ := hInv
    rw [dfsDeps]
    exact ⟨rfl, fun x hx => hx, v6, v9, dis7, hTopo,
      fun b hb => absurd hb (List.not_mem_nil b)⟩
  | cons dep rest ihrest =>
    intro nodeId path d1 d2 d3 d4 hInv hTopo d11 d12 d13
    obtain ⟨g5, v6, dis7, g8, v9⟩ := hInv
    have hd4r : ∀ b ∈ rest, b ∈ succs nodeId :=
      fun b hb => d4 b (List.mem_cons_of_mem dep hb)
    rw [dfsDeps]
    by_cases hids : dep ∈ ids
    · rw [if_pos hids]
      by_cases hgray : dep ∈ visiting
      · rw [if_pos hgray]
        show HasCycle (EdgeS succs ids)
        have hdp : dep ∈ path := (d13 dep).mpr hgray
        obtain ⟨tl, htl⟩ := dropWhile_ne_cons dep path hdp
        obtain ⟨pre, hpre⟩ := dropWhile_is_suffix (fun x => ¬ (x = dep)) path
        have hpath : path = pre ++ dep :: tl := by rw [← hpre, htl]
        rw [hpath] at d11 d12
        rw [List.getLast?_append_cons] at d11
        have hchain : List.Chain' (EdgeS succs ids) (dep :: tl) :=
          (List.chain'_append.mp d12).2.1
        have hedge : EdgeS succs ids nodeId dep :=
          ⟨d3, hids, d4 dep (List.mem_cons_self dep rest)⟩
        refine ⟨dep :: tl, ?_⟩
        show List.Chain (EdgeS succs ids) dep (tl ++ [dep])
        have hch2 : List.Chain' (EdgeS succs ids) ((dep :: tl) ++ [dep]) := by
          apply List.chain'_append.mpr
          refine ⟨hchain, List.chain'_singleton dep, ?_⟩
          intro x hx y hy
          rw [d11] at hx
          have hxn : nodeId = x := by simpa using hx
          have hyd : dep = y := by simpa using hy
          rw [← hxn, ← hyd]
          exact hedge
        rw [List.cons_append] at hch2
        exact hch2
      · rw [if_neg hgray]
        by_cases hblack : dep ∈ visited
        · rw [if_pos hblack]
          have hD2 := ihrest visited nodeId path d1 d2 d3 hd4r
            ⟨g5, v6, dis7, g8, v9⟩ hTopo d11 d12 d13
          cases hres : dfsDeps succs ids fuel visited visiting rest nodeId path with
          | mk v2 p2 =>
            cases p2 with
            | mk g2 res =>
              rw [hres] at hD2
              cases res with
              | some c => exact hD2
              | none =>
                obtain ⟨e1, e2, e3, e4, e5, e6, e7⟩ := hD2
                refine ⟨e1, e2, e3, e4, e5, e6, ?_⟩
                intro b hb hbids
                rcases List.mem_cons.mp hb with hb1 | hb2
                · rw [hb1]; exact e2 dep hblack
                · exact e7 b hb2 hbids
        · rw [if_neg hblack]
          have hmem : ∀ x, x ∈ path ++ [dep] ↔ (x ∈ visiting ∨ x = dep) := by
            intro x
            rw [List.mem_append, d13 x]
            simp
          have hchain2 : List.Chain' (EdgeS succs ids) (path ++ [dep]) := by
            apply List.chain'_append.mpr
            refine ⟨d12, List.chain'_singleton dep, ?_⟩
            intro x hx y hy
            rw [d11] at hx
            have hxn : nodeId = x := by simpa using hx
            have hyd : dep = y := by simpa using hy
            rw [← hxn, ← hyd]
            exact ⟨d3, hids, d4 dep (List.mem_cons_self dep rest)⟩
          have hlast3 : (path ++ [dep]).getLast? = some dep := List.getLast?_concat path
          have hN2 := hN visited visiting dep (path ++ [dep]) d1 hids hblack hgray
            ⟨g5, v6, dis7, g8, v9⟩ hTopo hlast3 hchain2 hmem
          cases hres : dfsNode succs ids fuel visited visiting dep (path ++ [dep]) with
          | mk v2 p2 =>
            cases p2 with
            | mk g2 res =>
              rw [hres] at hN2
              cases res with
              | some c => exact hN2
              | none =>
                obtain ⟨hg2, hsub2, hdepv2, hnd2, hids22, hnin2, htopo22⟩ := hN2
                subst hg2
                show DepsPost succs ids visited g2 (dep :: rest)
                  (dfsDeps succs ids fuel v2 g2 rest nodeId path)
                have hD2 := ihrest v2 nodeId path d1 d2 d3 hd4r
                  ⟨g5, hnd2, hnin2, g8, hids22⟩ htopo22 d11 d12 d13
                cases hres2 : dfsDeps succs ids fuel v2 g2 rest nodeId path with
                | mk v3 p3 =>
                  cases p3 with
                  | mk g3 res3 =>
                    rw [hres2] at hD2
                    cases res3 with
                    | some c => exact hD2
                    | none =>
                      obtain ⟨f1, f2, f3, f4, f5, f6, f7⟩ := hD2
                      refine ⟨f1, fun x hx => f2 x (hsub2 x hx), f3, f4, f5, f6, ?_⟩
                      intro b hb hbids
                      rcases List.mem_cons.mp hb with hb1 | hb2
                      · rw [hb1]; exact f2 dep hdepv2
                      · exact f7 b hb2 hbids
    · rw [if_neg hids]
      have hD2 := ihrest visited nodeId path d1 d2 d3 hd4r
        ⟨g5, v6, dis7, g8, v9⟩ hTopo d11 d12 d13
      cases hres : dfsDeps succs ids fuel visited visiting rest nodeId path with
      | mk v2 p2 =>
        cases p2 with
        | mk g2 res =>
          rw [hres] at hD2
          cases res with
          | some c => exact hD2
          | none =>
            obtain ⟨e1, e2, e3, e4, e5, e6, e7⟩ := hD2
            refine ⟨e1, e2, e3, e4, e5, e6, ?_⟩
            intro b hb hbids
            rcases List.mem_cons.mp hb with hb1 | hb2
            · rw [hb1] at hbids; exact absurd hbids hids
            · exact e7 b hb2 hbids

theorem nodeGood_succ (succs : List Char → List (List Char))
    (ids : List (List Char)) (fuel : Nat) (hD : DepsGood succs ids fuel) :
    NodeGood succs ids (fuel + 1) := by
  intro visited visiting nodeId path h1 h2 h3 h4 hInv hTopo h11 h12 h13
  obtain ⟨g5, v6, dis7, g8, v9⟩ := hInv
  rw [dfsNode]
  rw [if_neg h4]
  have hfuel2 : countFresh ids (nodeId :: visiting) < fuel := by
    have := countFresh_cons ids visiting nodeId h2 h4
    omega
  have hInv2 : DfsInv ids visited (nodeId :: visiting) := by
    refine ⟨List.nodup_cons.mpr ⟨h4, g5⟩, v6, ?_, ?_, v9⟩
    · intro x hx hc
      rcases List.mem_cons.mp hc with h | h
      · exact h3 (h ▸ hx)
      · exact dis7 x hx h
    · intro x hx
      rcases List.mem_cons.mp hx with h | h
      · rw [h]; exact h2
      · exact g8 x h
  have hmem2 : ∀ x, x ∈ path ↔ x ∈ nodeId :: visiting := by
    intro x
    rw [h13 x, List.mem_cons]
    tauto
  have hD2 := hD visited (nodeId :: visiting) (succs nodeId) nodeId path hfuel2
    (List.mem_cons_self nodeId visiting) h2 (fun b hb => hb) hInv2 hTopo h11 h12 hmem2
  cases hres : dfsDeps succs ids fuel visited (nodeId :: visiting) (succs nodeId)
      nodeId path with
  | mk v2 p2 =>
    cases p2 with
    | mk g2 res =>
      rw [hres] at hD2
      cases res with
      | some c => exact hD2
      | none =>
        obtain ⟨hg2, hsub, hnd, hids2, hnInG, htopo2, hcov⟩ := hD2
        subst hg2
        have hnodeNotV2 : ¬ nodeId ∈ v2 := fun hc =>
          hnInG nodeId hc (List.mem_cons_self nodeId visiting)
        show NodePost succs ids visited visiting nodeId
          ((if nodeId ∈ v2 then v2 else nodeId :: v2),
            (nodeId :: visiting).erase nodeId, none)
        rw [if_neg hnodeNotV2, List.erase_cons_head]
        refine ⟨rfl, fun x hx => List.mem_cons_of_mem nodeId (hsub x hx),
          List.mem_cons_self nodeId v2, List.nodup_cons.mpr ⟨hnodeNotV2, hnd⟩,
          ?_, ?_, ?_⟩
        · intro x hx
          rcases List.mem_cons.mp hx with h | h
          · rw [h]; exact h2
          · exact hids2 x h
        · intro x hx
          rcases List.mem_cons.mp hx with h | h
          · rw [h]; exact h4
          · intro hc
            exact hnInG x h (List.mem_cons_of_mem nodeId hc)
        · exact ⟨hcov, htopo2⟩

theorem dfs_nodeGood (succs : List Char → List (List Char))
    (ids : List (List Char)) : ∀ fuel, NodeGood succs ids fuel := by
  intro fuel
  induction fuel with
  | zero =>
    intro visited visiting nodeId path h1
    exact absurd h1 (Nat.not_lt_zero _)
  | succ fuel ih =>
    exact nodeGood_succ succs ids fuel (depsGood_of_nodeGood succs ids fuel ih)

theorem dfs_depsGood (succs : List Char → List (List Char))
    (ids : List (List Char)) : ∀ fuel, DepsGood succs ids fuel :=
  fun fuel => depsGood_of_nodeGood succs ids fuel (dfs_nodeGood succs ids fuel)

theorem no_cycle_of_no_edge (R : List Char → List Char → Prop)
    (h : ∀ a b, ¬ R a b) : ¬ HasCycle R :=
  no_cycle_of_rank R (fun _ => 0) (fun a b hab => absurd hab (h a b))

theorem rootLoop_master (succs : List Char → List (List Char))
    (ids : List (List Char)) (fuel : Nat) :
    ∀ ts : List Task, ∀ visited : List (List Char),
      countFresh ids [] < fuel →
      (∀ t ∈ ts, t.id ∈ ids) →
      visited.Nodup → (∀ x ∈ visited, x ∈ ids) → TopoList succs ids visited →
      (rootLoop succs ids fuel ts visited [] = ⟨false, none⟩ ∧
        ∃ V : List (List Char), V.Nodup ∧ (∀ x ∈ V, x ∈ ids) ∧
          TopoList succs ids V ∧ (∀ x ∈ visited, x ∈ V) ∧ (∀ t ∈ ts, t.id ∈ V)) ∨
      ((rootLoop succs ids fuel ts visited []).hasCycle = true ∧
        HasCycle (EdgeS succs ids)) := by
  intro ts
  induction ts with
  | nil =>
    intro visited hfuel hts hnd hsub htopo
    left
    rw [rootLoop]
    exact ⟨rfl, visited, hnd, hsub, htopo, fun x hx => hx,
      fun t ht => absurd ht (List.not_mem_nil t)⟩
  | cons t rest ih =>
    intro visited hfuel hts hnd hsub htopo
    have htrest : ∀ u ∈ rest, u.id ∈ ids :=
      fun u hu => hts u (List.mem_cons_of_mem t hu)
    rw [rootLoop]
    by_cases hv : t.id ∈ visited
    · rw [if_pos hv]
      rcases ih visited hfuel htrest hnd hsub htopo with
        ⟨hres, V, hV1, hV2, hV3, hV4, hV5⟩ | hright
      · left
        refine ⟨hres, V, hV1, hV2, hV3, hV4, ?_⟩
        intro u hu
        rcases List.mem_cons.mp hu with hu1 | hu2
        · rw [hu1]; exact hV4 t.id hv
        · exact hV5 u hu2
      · right; exact hright
    · rw [if_neg hv]
      have hInv : DfsInv ids visited [] :=
        ⟨List.nodup_nil, hnd, fun x hx hc => absurd hc (List.not_mem_nil x),
          fun x hx => absurd hx (List.not_mem_nil x), hsub⟩
      have hN := dfs_nodeGood succs ids fuel visited [] t.id [t.id] hfuel
        (hts t (List.mem_cons_self t rest)) hv (List.not_mem_nil t.id) hInv htopo
        (List.getLast?_singleton t.id) (List.chain'_singleton t.id)
        (fun x => by simp)
      cases hres : dfsNode succs ids fuel visited [] t.id [t.id] with
      | mk v2 p2 =>
        cases p2 with
        | mk g2 res =>
          rw [hres] at hN
          cases res with
          | some c =>
            right
            exact ⟨rfl, hN⟩
          | none =>
            obtain ⟨hg2, hsub2, htid, hnd2, hids2, _, htopo2⟩ := hN
            subst hg2
            rcases ih v2 hfuel htrest hnd2 hids2 htopo2 with
              ⟨hres2, V, hV1, hV2, hV3, hV4, hV5⟩ | hright
            · left
              refine ⟨hres2, V, hV1, hV2, hV3,
                fun x hx => hV4 x (hsub2 x hx), ?_⟩
              intro u hu
              rcases List.mem_cons.mp hu with hu1 | hu2
              · rw [hu1]; exact hV4 t.id htid
              · exact hV5 u hu2
            · right
              exact hright

theorem detectCycles_no_selfdep (ts : List Task)
    (hfind : ts.find? (fun t => t.id ∈ t.deps) = none) :
    (detectCycles ts = ⟨false, none⟩ ∧
      ¬ HasCycle (EdgeS (graphOf ts) (idsOf ts))) ∨
    ((detectCycles ts).hasCycle = true ∧
      HasCycle (EdgeS (graphOf ts) (idsOf ts))) := by
  unfold detectCycles
  by_cases hemp : ts.isEmpty
  · rw [if_pos hemp]
    have hnil : ts = [] := List.isEmpty_iff.mp hemp
    subst hnil
    left
    refine ⟨rfl, ?_⟩
    apply no_cycle_of_no_edge
    intro a b hab
    exact absurd hab.1 (List.not_mem_nil a)
  · rw [if_neg hemp, hfind]
    have hfuel : countFresh (idsOf ts) [] < ts.length + 1 := by
      have h1 := countFresh_nil_le (idsOf ts)
      have h2 : (idsOf ts).length = ts.length := by simp [idsOf]
      omega
    have hts : ∀ t ∈ ts, t.id ∈ idsOf ts := fun t ht => List.mem_map_of_mem _ ht
    have hroot := rootLoop_master (graphOf ts) (idsOf ts) (ts.length + 1) ts []
      hfuel hts List.nodup_nil (fun x hx => absurd hx (List.not_mem_nil x)) trivial
    rcases hroot with ⟨hres, V, hV1, hV2, hV3, _, hV5⟩ | ⟨htrue, hcyc⟩
    · left
      refine ⟨hres, ?_⟩
      apply no_cycle_of_topo_cover (graphOf ts) (idsOf ts) V hV3 hV1
      intro x hx
      obtain ⟨t, ht, rfl⟩ := List.mem_map.mp hx
      exact hV5 t ht
    · right
      exact ⟨htrue, hcyc⟩

theorem filter_id_eq (t : Task) :
    ∀ ts : List Task, (idsOf ts).Nodup → t ∈ ts →
      ts.filter (fun u => u.id = t.id) = [t] := by
  intro ts
  induction ts with
  | nil => intro _ ht; cases ht
  | cons u rest ih =>
    intro hn ht
    have hn' : ¬ u.id ∈ idsOf rest ∧ (idsOf rest).Nodup := by
      rw [show idsOf (u :: rest) = u.id :: idsOf rest from rfl,
        List.nodup_cons] at hn
      exact hn
    rcases List.mem_cons.mp ht with rfl | htr
    · rw [List.filter_cons, if_pos (by simp)]
      have hrest : rest.filter (fun u => u.id = t.id) = [] := by
        apply List.filter_eq_nil.mpr
        intro v hv
        simp only [decide_eq_true_eq]
        intro h
        exact hn'.1 (h ▸ List.mem_map_of_mem _ hv)
      rw [hrest]
    · have hne : ¬ (u.id = t.id) := by
        intro h
        exact hn'.1 (h ▸ List.mem_map_of_mem _ htr)
      rw [List.filter_cons, if_neg (by simpa using hne)]
      exact ih hn'.2 htr

theorem graphOf_eq (ts : List Task) (hn : (idsOf ts).Nodup) (t : Task)
    (ht : t ∈ ts) : graphOf ts t.id = t.deps := by
  unfold graphOf
  rw [filter_id_eq t ts hn ht]
  simp

theorem edgeT_iff (ts : List Task) (hn : (idsOf ts).Nodup) (a b : List Char) :
    EdgeT ts a b ↔ EdgeS (graphOf ts) (idsOf ts) a b := by
  constructor
  · rintro ⟨t, ht, rfl, hbd, hbi⟩
    exact ⟨List.mem_map_of_mem _ ht, hbi,
      by rw [graphOf_eq ts hn t ht]; exact hbd⟩
  · rintro ⟨ha, hb, hs⟩
    obtain ⟨t, ht, hta⟩ := List.mem_map.mp ha
    refine ⟨t, ht, hta, ?_, hb⟩
    rw [← hta, graphOf_eq ts hn t ht] at hs
    exact hs

theorem hasCycle_T_iff (ts : List Task) (hn : (idsOf ts).Nodup) :
    HasCycle (EdgeT ts) ↔ HasCycle (EdgeS (graphOf ts) (idsOf ts)) :=
  ⟨hasCycle_mono _ _ (fun a b => (edgeT_iff ts hn a b).mp),
   hasCycle_mono _ _ (fun a b => (edgeT_iff ts hn a b).mpr)⟩

/-- C2: on a collection with pairwise-distinct ids, `detectCycles` reports a
cycle exactly when the dependency graph (edges `id → dep` for deps present in
the collection, self-loops included) has one; a task depending on itself is
reported with path `[id, id]`, and an acyclic graph yields
`{hasCycle: false}`. -/
theorem detectCycles_spec (ts : List Task) (hn : (idsOf ts).Nodup) :
    ((detectCycles ts).hasCycle = true ↔ HasCycle (EdgeT ts)) ∧
    (∀ t ∈ ts, t.id ∈ t.deps →
      ∃ u ∈ ts, u.id ∈ u.deps ∧ detectCycles ts = ⟨true, some [u.id, u.id]⟩) ∧
    (¬ HasCycle (EdgeT ts) → detectCycles ts = ⟨false, none⟩) := by
  cases hfind : ts.find? (fun t => t.id ∈ t.deps) with
  | some t =>
    have htmem : t ∈ ts := List.mem_of_find?_eq_some hfind
    have htdep : t.id ∈ t.deps := by
      have := List.find?_some hfind
      simpa using this
    have hne : ¬ ts.isEmpty := by
      intro h
      rw [List.isEmpty_iff.mp h] at htmem
      exact absurd htmem (List.not_mem_nil t)
    have hres : detectCycles ts = ⟨true, some [t.id, t.id]⟩ := by
      unfold detectCycles
      rw [if_neg hne, hfind]
    have hcyc : HasCycle (EdgeT ts) := by
      refine ⟨[t.id], ?_⟩
      show List.Chain (EdgeT ts) t.id ([] ++ [t.id])
      simp only [List.nil_append]
      exact List.Chain.cons
        ⟨t, htmem, rfl, htdep, List.mem_map_of_mem _ htmem⟩ List.Chain.nil
    refine ⟨?_, ?_, ?_⟩
    · rw [hres]
      exact ⟨fun _ => hcyc, fun _ => rfl⟩
    · intro u _ _
      exact ⟨t, htmem, htdep, hres⟩
    · intro hnc
      exact absurd hcyc hnc
  | none =>
    have hnoself : ∀ t ∈ ts, ¬ t.id ∈ t.deps := by
      intro t ht
      have := List.find?_eq_none.mp hfind t ht
      simpa using this
    rcases detectCycles_no_selfdep ts hfind with ⟨hres, hnc⟩ | ⟨htrue, hcyc⟩
    · have hncT : ¬ HasCycle (EdgeT ts) := fun h => hnc ((hasCycle_T_iff ts hn).mp h)
      refine ⟨?_, ?_, fun _ => hres⟩
      · rw [hres]
        exact ⟨fun h => absurd h (by decide), fun h => absurd h hncT⟩
      · intro t ht htd
        exact absurd htd (hnoself t ht)
    · have hcT : HasCycle (EdgeT ts) := (hasCycle_T_iff ts hn).mpr hcyc
      refine ⟨⟨fun _ => hcT, fun _ => htrue⟩, ?_, fun hnc => absurd hcT hnc⟩
      intro t ht htd
      exact absurd htd (hnoself t ht)

theorem detectCycles_spec_witness :
    (idsOf exTasksCycle).Nodup ∧
    (((detectCycles exTasksCycle).hasCycle = true ↔ HasCycle (EdgeT exTasksCycle)) ∧
      (∀ t ∈ exTasksCycle, t.id ∈ t.deps →
        ∃ u ∈ exTasksCycle, u.id ∈ u.deps ∧
          detectCycles exTasksCycle = ⟨true, some [u.id, u.id]⟩) ∧
      (¬ HasCycle (EdgeT exTasksCycle) → detectCycles exTasksCycle = ⟨false, none⟩)) :=
  ⟨by decide, detectCycles_spec exTasksCycle (by decide)⟩

theorem graphOf_sanitize_sub (ts : List Task) (a b : List Char)
    (hb : b ∈ graphOf (sanitizeDependencies ts) a) : b ∈ graphOf ts a := by
  rw [sanitizeDependencies_eq_map] at hb
  unfold graphOf at hb ⊢
  rw [List.filter_map] at hb
  have hcomp : ((fun u : Task => decide (u.id = a)) ∘
      (fun t : Task =>
        { t with deps := t.deps.filter (fun d => ¬(d = t.id) ∧ d ∈ idsOf ts) })) =
      fun t : Task => decide (t.id = a) := rfl
  rw [hcomp, List.getLast?_map] at hb
  cases hlast : (ts.filter (fun t => t.id = a)).getLast? with
  | none =>
    rw [hlast] at hb
    simp at hb
  | some t =>
    rw [hlast] at hb
    have hb2 : b ∈ t.deps.filter (fun d => ¬(d = t.id) ∧ d ∈ idsOf ts) := by
      simpa using hb
    simpa using List.mem_of_mem_filter hb2

/-- C7: dependency sanitization never introduces a cycle — if `detectCycles`
reports no cycle on a collection, it reports no cycle on the sanitized
collection either. -/
theorem sanitize_preserves_acyclic (ts : List Task)
    (h : (detectCycles ts).hasCycle = false) :
    (detectCycles (sanitizeDependencies ts)).hasCycle = false := by
  cases hfind : ts.find? (fun t => t.id ∈ t.deps) with
  | some t =>
    have htmem : t ∈ ts := List.mem_of_find?_eq_some hfind
    have hne : ¬ ts.isEmpty := by
      intro hemp
      rw [List.isEmpty_iff.mp hemp] at htmem
      exact absurd htmem (List.not_mem_nil t)
    have hres : detectCycles ts = ⟨true, some [t.id, t.id]⟩ := by
      unfold detectCycles
      rw [if_neg hne, hfind]
    rw [hres] at h
    simp at h
  | none =>
    rcases detectCycles_no_selfdep ts hfind with ⟨hres, hnc⟩ | ⟨htrue, _⟩
    · have hnc' : ¬ HasCycle
          (EdgeS (graphOf (sanitizeDependencies ts))
            (idsOf (sanitizeDependencies ts))) := by
        intro hc
        apply hnc
        apply hasCycle_mono _ _ _ hc
        intro a b hab
        obtain ⟨ha, hb, hs⟩ := hab
        rw [idsOf_sanitize] at ha hb
        exact ⟨ha, hb, graphOf_sanitize_sub ts a b hs⟩
      have hfind' : (sanitizeDependencies ts).find? (fun t => t.id ∈ t.deps) = none := by
        apply List.find?_eq_none.mpr
        intro t ht
        rw [sanitizeDependencies_eq_map] at ht
        obtain ⟨u, hu, rfl⟩ := List.mem_map.mp ht
        intro hmem
        simp at hmem
      rcases detectCycles_no_selfdep (sanitizeDependencies ts) hfind' with
        ⟨hres', _⟩ | ⟨_, hcyc'⟩
      · rw [hres']
      · exact absurd hcyc' hnc'
    · rw [htrue] at h
      exact absurd h (by decide)

theorem sanitize_preserves_acyclic_witness :
    (detectCycles ([] : List Task)).hasCycle = false ∧
    (detectCycles (sanitizeDependencies ([] : List Task))).hasCycle = false :=
  ⟨rfl, sanitize_preserves_acyclic [] rfl⟩

theorem nodup_idxOf_get? :
    ∀ l : List (List Char), l.Nodup → ∀ i a, l.get? i = some a → idxOf a l = i := by
  intro l
  induction l with
  | nil =>
    intro _ i a h
    rw [List.get?_nil] at h
    cases h
  | cons b r ih =>
    intro hn i a h
    rw [List.nodup_cons] at hn
    cases i with
    | zero =>
      have hba : b = a := by simpa using h
      rw [← hba, idxOf_cons_self]
    | succ j =>
      have h2 : r.get? j = some a := by simpa using h
      have hmem : a ∈ r := List.get?_mem h2
      have hba : ¬ b = a := fun hb => hn.1 (hb ▸ hmem)
      rw [idxOf_cons_ne a b r hba, ih hn.2 j a h2]

theorem take_idxOf_lt (l : List (List Char)) (hn : l.Nodup) (i : Nat)
    (b : List Char) (hb : b ∈ l.take i) : idxOf b l < i := by
  obtain ⟨j, hj⟩ := List.mem_iff_get?.mp hb
  have hjlen : j < (l.take i).length := by
    by_contra hge
    rw [List.get?_eq_none.mpr (Nat.le_of_not_lt hge)] at hj
    cases hj
  have hji : j < i := by
    have := List.length_take i l
    omega
  rw [List.get?_take hji] at hj
  rw [nodup_idxOf_get? l hn j b hj]
  exact hji

theorem layered_selfdep_free (ts : List Task) (hl : Layered ts)
    (hn : (idsOf ts).Nodup) : ∀ t ∈ ts, ¬ t.id ∈ t.deps := by
  intro t ht htd
  obtain ⟨i, hi⟩ := List.mem_iff_get?.mp ht
  have hd := hl i t hi t.id htd
  have hd2 : t.id ∈ (idsOf ts).take i := by
    rw [idsOf, ← List.map_take]
    exact hd
  have hlt := take_idxOf_lt (idsOf ts) hn i t.id hd2
  have hidx : (idsOf ts).get? i = some t.id := by
    rw [idsOf, List.get?_map, hi]
    rfl
  rw [nodup_idxOf_get? (idsOf ts) hn i t.id hidx] at hlt
  omega

theorem layered_no_cycle (ts : List Task) (hl : Layered ts)
    (hn : (idsOf ts).Nodup) : ¬ HasCycle (EdgeS (graphOf ts) (idsOf ts)) := by
  apply no_cycle_of_rank _ (fun x => idxOf x (idsOf ts))
  intro a b hab
  obtain ⟨ha, hb, hs⟩ := hab
  obtain ⟨i, hi⟩ := List.mem_iff_get?.mp ha
  obtain ⟨t, hti, hta⟩ : ∃ t, ts.get? i = some t ∧ t.id = a := by
    cases hti : ts.get? i with
    | none =>
      rw [idsOf, List.get?_map, hti] at hi
      simp at hi
    | some t =>
      rw [idsOf, List.get?_map, hti] at hi
      exact ⟨t, rfl, by simpa using hi⟩
  have htmem : t ∈ ts := List.get?_mem hti
  have hga : graphOf ts a = t.deps := by
    rw [← hta]
    exact graphOf_eq ts hn t htmem
  rw [hga] at hs
  have hd := hl i t hti b hs
  have hd2 : b ∈ (idsOf ts).take i := by
    rw [idsOf, ← List.map_take]
    exact hd
  have hlt := take_idxOf_lt (idsOf ts) hn i b hd2
  show idxOf b (idsOf ts) < idxOf a (idsOf ts)
  rw [nodup_idxOf_get? (idsOf ts) hn i a hi]
  exact hlt

theorem detectCycles_of_layered (ts : List Task) (hl : Layered ts)
    (hn : (idsOf ts).Nodup) : detectCycles ts = ⟨false, none⟩ := by
  have hfind : ts.find? (fun t => t.id ∈ t.deps) = none := by
    apply List.find?_eq_none.mpr
    intro t ht
    have := layered_selfdep_free ts hl hn t ht
    simpa using this
  rcases detectCycles_no_selfdep ts hfind with ⟨hres, _⟩ | ⟨_, hcyc⟩
  · exact hres
  · exact absurd hcyc (layered_no_cycle ts hl hn)

/-- C1 (amended): as long as the effective task limit (`maxTasks`, default 20)
stays at most 999, every synthesized task id matches `^[A-Z]-\d\x7b3\x7d$`, the
ids are pairwise distinct, and cycle detection on the synthesized collection
returns `hasCycle: false` (in fact the full result `⟨false, none⟩`).  With a
limit of 1000 or more, padded counters reach four digits and the id pattern
fails (see the counterexample). -/
theorem synthesize_ids_unique_acyclic (sections : List Sec) (maxTasks : Option Nat)
    (hcap : maxTasks.getD 20 ≤ 999) :
    (∀ t ∈ generateTasksFromSections sections maxTasks, idPattern t.id = true) ∧
    (idsOf (generateTasksFromSections sections maxTasks)).Nodup ∧
    detectCycles (generateTasksFromSections sections maxTasks) = ⟨false, none⟩ := by
  obtain ⟨hinv, hle, _⟩ := generateTasksFromSections_spec sections maxTasks
  obtain ⟨_, hids, hlay, _⟩ := hinv
  have hlen : (generateTasksFromSections sections maxTasks).length ≤ 999 := by
    omega
  have hnodup : (idsOf (generateTasksFromSections sections maxTasks)).Nodup := by
    rw [hids]
    exact range_mkId_nodup _ hlen
  refine ⟨?_, hnodup, detectCycles_of_layered _ hlay hnodup⟩
  intro t ht
  have hmem : t.id ∈ idsOf (generateTasksFromSections sections maxTasks) :=
    List.mem_map_of_mem _ ht
  rw [hids] at hmem
  obtain ⟨k, hk, hkid⟩ := List.mem_map.mp hmem
  have hk2 := List.mem_range'_1.mp hk
  rw [← hkid]
  exact idPattern_mkId k hk2.1 (by omega)

theorem genLoop_replicate_length :
    ∀ (m : Nat) (tasks : List Task) (counter : Nat),
      tasks.length + m ≤ 1000 →
      (genLoop 1000 1000 (List.replicate m ⟨chars "S", [], 0⟩) tasks counter).1.length =
        tasks.length + m := by
  intro m
  induction m with
  | zero =>
    intro tasks counter _
    rw [show List.replicate 0 (⟨chars "S", [], 0⟩ : Sec) = [] from rfl, genLoop]
    rfl
  | succ m ih =>
    intro tasks counter h
    rw [show List.replicate (m + 1) (⟨chars "S", [], 0⟩ : Sec) =
      ⟨chars "S", [], 0⟩ :: List.replicate m ⟨chars "S", [], 0⟩ from rfl]
    rw [genLoop]
    rw [if_neg (by omega : ¬ (1000 ≤ tasks.length))]
    have hc : calculateTasksPerSection ⟨chars "S", [], 0⟩ 1000 = 1 := by decide
    have hstep : genInner ⟨chars "S", [], 0⟩ 1000 1 tasks counter =
        if tasks.length < 1000 then
          (tasks ++ [generateTask ⟨chars "S", [], 0⟩ counter tasks], counter + 1)
        else (tasks, counter) := rfl
    rw [hc, hstep, if_pos (by omega : tasks.length < 1000)]
    show (genLoop 1000 1000 (List.replicate m ⟨chars "S", [], 0⟩)
      (tasks ++ [generateTask ⟨chars "S", [], 0⟩ counter tasks])
      (counter + 1)).1.length = tasks.length + (m + 1)
    rw [ih (tasks ++ [generateTask ⟨chars "S", [], 0⟩ counter tasks]) (counter + 1)
      (by simp only [List.length_append, List.length_singleton]; omega)]
    simp only [List.length_append, List.length_singleton]
    omega

theorem forceOne_cons (secs : List Sec) (t : Task) (r : List Task) :
    forceOne secs (t :: r) = t :: r := by
  cases secs with
  | nil => rfl
  | cons a l => rfl

theorem synthesize_ids_counterexample :
    chars "T-1000" ∈ idsOf (generateTasksFromSections
      (List.replicate 1000 ⟨chars "S", [], 0⟩) (some 1000)) ∧
    idPattern (chars "T-1000") = false := by
  have hlen0 : (genLoop 1000 1000 (List.replicate 1000 ⟨chars "S", [], 0⟩)
      [] 1).1.length = 1000 := by
    have h := genLoop_replicate_length 1000 [] 1
      (by simp only [List.length_nil]; omega)
    rw [h]
    rfl
  have hrlen : (generateTasksFromSections (List.replicate 1000 ⟨chars "S", [], 0⟩)
      (some 1000)).length = 1000 := by
    unfold generateTasksFromSections
    rw [show (List.replicate 1000 (⟨chars "S", [], 0⟩ : Sec)).length = 1000 from
      List.length_replicate 1000 _]
    rw [show (some 1000).getD 20 = 1000 from rfl]
    cases hr : (genLoop 1000 1000 (List.replicate 1000 ⟨chars "S", [], 0⟩) [] 1).1 with
    | nil =>
      rw [hr] at hlen0
      simp at hlen0
    | cons t r' =>
      rw [hr] at hlen0
      rw [forceOne_cons]
      exact hlen0
  obtain ⟨hinv, _, _⟩ := generateTasksFromSections_spec
    (List.replicate 1000 ⟨chars "S", [], 0⟩) (some 1000)
  have hids := hinv.2.1
  rw [hrlen] at hids
  refine ⟨?_, by decide⟩
  rw [hids]
  have h1000 : (1000 : Nat) ∈ List.range' 1 1000 := by
    rw [List.mem_range'_1]
    omega
  have hm := List.mem_map_of_mem mkId h1000
  rw [show mkId 1000 = chars "T-1000" from by decide] at hm
  exact hm

theorem eprod_ok {α β : Type} (x : Except (List Issue) α)
    (y : Except (List Issue) β) (r : α × β) (h : eprod x y = .ok r) :
    x = .ok r.1 ∧ y = .ok r.2 := by
  cases x with
  | ok a =>
    cases y with
    | ok b =>
      simp only [eprod, Except.ok.injEq] at h
      subst h
      exact ⟨rfl, rfl⟩
    | error e => simp [eprod] at h
  | error e =>
    cases y <;> simp [eprod] at h

theorem fieldE_ok {α : Type} (fs : List (List Char × JVal)) (k : List Char)
    (check : JVal → Except (List Issue) α) (a : α)
    (h : fieldE fs k check = .ok a) :
    ∃ v, jgetField fs k = some v ∧ check v = .ok a := by
  unfold fieldE at h
  split at h
  · rename_i v hg
    split at h
    · rename_i b hc
      simp only [Except.ok.injEq] at h
      subst h
      exact ⟨v, hg, hc⟩
    · simp at h
  · simp at h

theorem fieldO_ok {α : Type} (fs : List (List Char × JVal)) (k : List Char)
    (check : Option JVal → Except (List Issue) α) (a : α)
    (h : fieldO fs k check = .ok a) : check (jgetField fs k) = .ok a := by
  unfold fieldO at h
  split at h
  · rename_i b hc
    simp only [Except.ok.injEq] at h
    subst h
    exact hc
  · simp at h

theorem checkId_ok (v : JVal) (s : List Char) (h : checkId v = .ok s) :
    1 ≤ s.length ∧ s.length ≤ 32 ∧ idPattern s = true := by
  cases v with
  | jstr s' =>
    unfold checkId at h
    by_cases h1 : s'.length < 1 <;> by_cases h2 : 32 < s'.length <;>
      by_cases h3 : idPattern s' = true <;> simp [h1, h2, h3] at h
    subst h
    exact ⟨by omega, by omega, h3⟩
  | jnull => simp [checkId] at h
  | jbool b => simp [checkId] at h
  | jnum q => simp [checkId] at h
  | jarr l => simp [checkId] at h
  | jobj fs => simp [checkId] at h

theorem checkTitle_ok (v : JVal) (s : List Char) (h : checkTitle v = .ok s) :
    3 ≤ s.length ∧ s.length ≤ 140 := by
  cases v with
  | jstr s' =>
    unfold checkTitle at h
    by_cases h1 : s'.length < 3 <;> by_cases h2 : 140 < s'.length <;>
      simp [h1, h2] at h
    subst h
    exact ⟨by omega, by omega⟩
  | jnull => simp [checkTitle] at h
  | jbool b => simp [checkTitle] at h
  | jnum q => simp [checkTitle] at h
  | jarr l => simp [checkTitle] at h
  | jobj fs => simp [checkTitle] at h

theorem checkStep_ok (v : JVal) (s : List Char) (h : checkStep v = .ok s) :
    s ≠ [] := by
  cases v with
  | jstr s' =>
    unfold checkStep at h
    by_cases h1 : s'.length < 1 <;> simp [h1] at h
    subst h
    intro hnil
    rw [hnil] at h1
    simp at h1
  | jnull => simp [checkStep] at h
  | jbool b => simp [checkStep] at h
  | jnum q => simp [checkStep] at h
  | jarr l => simp [checkStep] at h
  | jobj fs => simp [checkStep] at h

theorem checkEnum_ok (allowed : List (List Char)) (v : JVal) (s : List Char)
    (h : checkEnum allowed v = .ok s) : s ∈ allowed := by
  cases v with
  | jstr s' =>
    unfold checkEnum at h
    by_cases h1 : s' ∈ allowed <;> simp [h1] at h
    subst h
    exact h1
  | jnull => simp [checkEnum] at h
  | jbool b => simp [checkEnum] at h
  | jnum q => simp [checkEnum] at h
  | jarr l => simp [checkEnum] at h
  | jobj fs => simp [checkEnum] at h

theorem checkEffort_ok (v : JVal) (q : Rat) (h : checkEffort v = .ok q) :
    2 ≤ q ∧ q ≤ 24 := by
  cases v with
  | jnum q' =>
    unfold checkEffort at h
    by_cases h1 : q' < 2 <;> by_cases h2 : 24 < q' <;> simp [h1, h2] at h
    subst h
    constructor <;> linarith
  | jnull => simp [checkEffort] at h
  | jbool b => simp [checkEffort] at h
  | jstr s => simp [checkEffort] at h
  | jarr l => simp [checkEffort] at h
  | jobj fs => simp [checkEffort] at h

theorem collectIdx_ok {α : Type} (check : JVal → Except (List Issue) α) :
    ∀ (i : Nat) (items : List JVal) (l : List α),
      collectIdx check i items = .ok l →
      l.length = items.length ∧ ∀ a ∈ l, ∃ w ∈ items, check w = .ok a := by
  intro i items
  induction items generalizing i with
  | nil =>
    intro l h
    unfold collectIdx at h
    injection h with h2
    subst h2
    exact ⟨rfl, fun a ha => absurd ha (List.not_mem_nil a)⟩
  | cons w r ih =>
    intro l h
    unfold collectIdx at h
    cases hcw : check w with
    | error e =>
      rw [hcw] at h
      cases hcr : collectIdx check (i + 1) r with
      | ok l' => rw [hcr] at h; simp at h
      | error f => rw [hcr] at h; simp at h
    | ok a =>
      rw [hcw] at h
      cases hcr : collectIdx check (i + 1) r with
      | error f => rw [hcr] at h; simp at h
      | ok l' =>
        rw [hcr] at h
        simp only [Except.ok.injEq] at h
        subst h
        obtain ⟨hlen, hmem⟩ := ih (i + 1) l' hcr
        refine ⟨by simp only [List.length_cons, hlen], ?_⟩
        intro b hb
        rcases List.mem_cons.mp hb with hb1 | hb2
        · refine ⟨w, List.mem_cons_self w r, ?_⟩
          rw [hb1]
          exact hcw
        · obtain ⟨w', hw', hcw'⟩ := hmem b hb2
          exact ⟨w', List.mem_cons_of_mem w hw', hcw'⟩

theorem checkArray_max_ok {α : Type} (elem : JVal → Except (List Issue) α)
    (n : Nat) (msg : List Char) (v : JVal) (l : List α)
    (h : checkArray elem none (some (n, msg)) v = .ok l) :
    l.length ≤ n ∧ ∀ a ∈ l, ∃ w, elem w = .ok a := by
  cases v with
  | jarr items =>
    simp only [checkArray] at h
    cases hc : collectIdx elem 0 items with
    | error e => rw [hc] at h; simp at h
    | ok l' =>
      rw [hc] at h
      obtain ⟨hlen, helem⟩ := collectIdx_ok elem 0 items l' hc
      by_cases hb : n < items.length
      · simp [hb] at h
      · simp [hb] at h
        subst h
        exact ⟨by omega, fun a ha => (helem a ha).elim fun w hw => ⟨w, hw.2⟩⟩
  | jnull => simp [checkArray] at h
  | jbool b => simp [checkArray] at h
  | jnum q => simp [checkArray] at h
  | jstr s => simp [checkArray] at h
  | jobj fs => simp [checkArray] at h

theorem checkArray_minmax_ok {α : Type} (elem : JVal → Except (List Issue) α)
    (n1 : Nat) (m1 : List Char) (n2 : Nat) (m2 : List Char) (v : JVal) (l : List α)
    (h : checkArray elem (some (n1, m1)) (some (n2, m2)) v = .ok l) :
    n1 ≤ l.length ∧ l.length ≤ n2 ∧ ∀ a ∈ l, ∃ w, elem w = .ok a := by
  cases v with
  | jarr items =>
    simp only [checkArray] at h
    cases hc : collectIdx elem 0 items with
    | error e => rw [hc] at h; simp at h
    | ok l' =>
      rw [hc] at h
      obtain ⟨hlen, helem⟩ := collectIdx_ok elem 0 items l' hc
      by_cases hb1 : items.length < n1 <;> by_cases hb2 : n2 < items.length <;>
        simp [hb1, hb2] at h
      subst h
      exact ⟨by omega, by omega,
        fun a ha => (helem a ha).elim fun w hw => ⟨w, hw.2⟩⟩
  | jnull => simp [checkArray] at h
  | jbool b => simp [checkArray] at h
  | jnum q => simp [checkArray] at h
  | jstr s => simp [checkArray] at h
  | jobj fs => simp [checkArray] at h

theorem checkMetadataObj_ok (dateOk : List Char → Bool) (v : JVal) (m : TaskMeta)
    (h : checkMetadataObj dateOk v = .ok m) :
    m.priority ∈ prioVals ∧ m.risk ∈ riskVals ∧
    2 ≤ m.effort_hours ∧ m.effort_hours ≤ 24 ∧
    m.role ∈ roleVals ∧ m.status ∈ statusVals := by
  cases v with
  | jobj fs =>
    simp only [checkMetadataObj] at h
    cases hall : eprod (fieldE fs (chars "priority") (checkEnum prioVals))
        (eprod (fieldE fs (chars "risk") (checkEnum riskVals))
        (eprod (fieldE fs (chars "effort_hours") checkEffort)
        (eprod (fieldE fs (chars "role") (checkEnum roleVals))
        (eprod (fieldE fs (chars "status") (checkEnum statusVals))
        (eprod (fieldE fs (chars "created") (checkDateStr dateOk))
               (fieldE fs (chars "updated") (checkDateStr dateOk))))))) with
    | error es => rw [hall] at h; simp at h
    | ok r =>
      rw [hall] at h
      simp only [Except.ok.injEq] at h
      subst h
      obtain ⟨h1, hrest⟩ := eprod_ok _ _ _ hall
      obtain ⟨h2, hrest⟩ := eprod_ok _ _ _ hrest
      obtain ⟨h3, hrest⟩ := eprod_ok _ _ _ hrest
      obtain ⟨h4, hrest⟩ := eprod_ok _ _ _ hrest
      obtain ⟨h5, _⟩ := eprod_ok _ _ _ hrest
      obtain ⟨w1, _, hw1⟩ := fieldE_ok _ _ _ _ h1
      obtain ⟨w2, _, hw2⟩ := fieldE_ok _ _ _ _ h2
      obtain ⟨w3, _, hw3⟩ := fieldE_ok _ _ _ _ h3
      obtain ⟨w4, _, hw4⟩ := fieldE_ok _ _ _ _ h4
      obtain ⟨w5, _, hw5⟩ := fieldE_ok _ _ _ _ h5
      have he := checkEffort_ok w3 _ hw3
      exact ⟨checkEnum_ok _ w1 _ hw1, checkEnum_ok _ w2 _ hw2, he.1, he.2,
        checkEnum_ok _ w4 _ hw4, checkEnum_ok _ w5 _ hw5⟩
  | jnull => simp [checkMetadataObj] at h
  | jbool b => simp [checkMetadataObj] at h
  | jnum q => simp [checkMetadataObj] at h
  | jstr s => simp [checkMetadataObj] at h
  | jarr l => simp [checkMetadataObj] at h

theorem checkTask_ok (dateOk : List Char → Bool) (v : JVal) (t : Task)
    (h : checkTask dateOk v = .ok t) : TaskFieldBounds t := by
  cases v with
  | jobj fs =>
    simp only [checkTask] at h
    cases hall : eprod (fieldE fs (chars "id") checkId)
        (eprod (fieldE fs (chars "title") checkTitle)
        (eprod (fieldO fs (chars "description") checkOptString)
        (eprod (fieldO fs (chars "details") checkOptString)
        (eprod (fieldO fs (chars "testStrategy") checkOptString)
        (eprod (fieldO fs (chars "tags")
          (fun ov => match ov with
            | none => .ok []
            | some w => checkArray checkString none
                (some (8, chars "Tasks cannot have more than 8 tags")) w))
        (eprod (fieldO fs (chars "deps")
          (fun ov => match ov with
            | none => .ok []
            | some w => checkArray checkString none
                (some (16, chars "Tasks cannot have more than 16 dependencies")) w))
        (eprod (fieldE fs (chars "steps")
          (checkArray checkStep (some (1, chars "Tasks must have at least 1 step"))
            (some (20, chars "Tasks cannot have more than 20 steps"))))
               (fieldO fs (chars "metadata") (checkOptMetadata dateOk))))))))) with
    | error es => rw [hall] at h; simp at h
    | ok r =>
      rw [hall] at h
      simp only [Except.ok.injEq] at h
      subst h
      obtain ⟨h1, hrest⟩ := eprod_ok _ _ _ hall
      obtain ⟨h2, hrest⟩ := eprod_ok _ _ _ hrest
      obtain ⟨h3, hrest⟩ := eprod_ok _ _ _ hrest
      obtain ⟨h4, hrest⟩ := eprod_ok _ _ _ hrest
      obtain ⟨h5, hrest⟩ := eprod_ok _ _ _ hrest
      obtain ⟨h6, hrest⟩ := eprod_ok _ _ _ hrest
      obtain ⟨h7, hrest⟩ := eprod_ok _ _ _ hrest
      obtain ⟨h8, h9⟩ := eprod_ok _ _ _ hrest
      obtain ⟨w1, _, hw1⟩ := fieldE_ok _ _ _ _ h1
      have hid := checkId_ok w1 _ hw1
      obtain ⟨w2, _, hw2⟩ := fieldE_ok _ _ _ _ h2
      have htitle := checkTitle_ok w2 _ hw2
      have h6' := fieldO_ok _ _ _ _ h6
      have htags : r.2.2.2.2.2.1.length ≤ 8 := by
        cases hg : jgetField fs (chars "tags") with
        | none =>
          rw [hg] at h6'
          simp only [Except.ok.injEq] at h6'
          rw [← h6']
          simp
        | some w =>
          rw [hg] at h6'
          exact (checkArray_max_ok checkString 8 _ w _ h6').1
      have h7' := fieldO_ok _ _ _ _ h7
      have hdeps : r.2.2.2.2.2.2.1.length ≤ 16 := by
        cases hg : jgetField fs (chars "deps") with
        | none =>
          rw [hg] at h7'
          simp only [Except.ok.injEq] at h7'
          rw [← h7']
          simp
        | some w =>
          rw [hg] at h7'
          exact (checkArray_max_ok checkString 16 _ w _ h7').1
      obtain ⟨w8, _, hw8⟩ := fieldE_ok _ _ _ _ h8
      obtain ⟨hs1, hs2, hs3⟩ := checkArray_minmax_ok checkStep 1 _ 20 _ w8 _ hw8
      have hsteps : ∀ s ∈ r.2.2.2.2.2.2.2.1, s ≠ [] := by
        intro s hs
        obtain ⟨w, hw⟩ := hs3 s hs
        exact checkStep_ok w s hw
      have h9' := fieldO_ok _ _ _ _ h9
      have hmeta : ∀ m, r.2.2.2.2.2.2.2.2 = some m →
          m.priority ∈ prioVals ∧ m.risk ∈ riskVals ∧
          2 ≤ m.effort_hours ∧ m.effort_hours ≤ 24 ∧
          m.role ∈ roleVals ∧ m.status ∈ statusVals := by
        intro m hm
        cases hg : jgetField fs (chars "metadata") with
        | none =>
          rw [hg] at h9'
          simp only [checkOptMetadata] at h9'
          simp only [Except.ok.injEq] at h9'
          rw [← h9'] at hm
          cases hm
        | some w =>
          rw [hg] at h9'
          simp only [checkOptMetadata] at h9'
          cases hcm : checkMetadataObj dateOk w with
          | ok m' =>
            rw [hcm] at h9'
            simp only [Except.ok.injEq] at h9'
            rw [← h9'] at hm
            simp only [Option.some.injEq] at hm
            subst hm
            exact checkMetadataObj_ok dateOk w m' hcm
          | error e => rw [hcm] at h9'; simp at h9'
      exact ⟨hid.2.2, hid.1, hid.2.1, htitle.1, htitle.2, htags, hdeps,
        hs1, hs2, hsteps, hmeta⟩
  | jnull => simp [checkTask] at h
  | jbool b => simp [checkTask] at h
  | jnum q => simp [checkTask] at h
  | jstr s => simp [checkTask] at h
  | jarr l => simp [checkTask] at h

theorem checkTasksJson_ok (dateOk : List Char → Bool) (v : JVal) (tj : TasksJsonV)
    (h : checkTasksJson dateOk v = .ok tj) :
    1 ≤ tj.tasks.length ∧ tj.tasks.length ≤ 200 ∧
    ∀ t ∈ tj.tasks, TaskFieldBounds t := by
  cases v with
  | jobj fs =>
    simp only [checkTasksJson] at h
    cases hall : eprod (fieldO fs (chars "version") checkVersion)
        (fieldE fs (chars "tasks")
          (checkArray (checkTask dateOk)
            (some (1, chars "TasksJson must contain at least 1 task"))
            (some (200, chars "TasksJson cannot contain more than 200 tasks")))) with
    | error es => rw [hall] at h; simp at h
    | ok r =>
      rw [hall] at h
      simp only [Except.ok.injEq] at h
      subst h
      obtain ⟨_, h2⟩ := eprod_ok _ _ _ hall
      obtain ⟨w, _, hw⟩ := fieldE_ok _ _ _ _ h2
      obtain ⟨ha, hb, hc⟩ := checkArray_minmax_ok (checkTask dateOk) 1 _ 200 _ w _ hw
      refine ⟨ha, hb, ?_⟩
      intro t ht
      obtain ⟨w', hw'⟩ := hc t ht
      exact checkTask_ok dateOk w' t hw'
  | jnull => simp [checkTasksJson] at h
  | jbool b => simp [checkTasksJson] at h
  | jnum q => simp [checkTasksJson] at h
  | jstr s => simp [checkTasksJson] at h
  | jarr l => simp [checkTasksJson] at h

/-- C4: for every runtime value (and any date-validity oracle), the safe
validators always return a plain success-or-issues result, the throwing
validators succeed with a value exactly when the safe ones do, every value
accepted as a Task satisfies all field bounds of the data model (id pattern
and 1–32 length, title 3–140, at most 8 tags and 16 deps, 1–20 non-empty
steps, metadata enums and effort in [2, 24]), and every value accepted as a
TasksJson carries 1–200 tasks. -/
theorem validators_safe_sound_bounded (dateOk : List Char → Bool) :
    (∀ v : JVal, (∃ t, safeParseTask dateOk v = .success t) ∨
      (∃ is, safeParseTask dateOk v = .failure is)) ∧
    (∀ v t, parseTask dateOk v = .ok t ↔ safeParseTask dateOk v = .success t) ∧
    (∀ v tj, parseTasksJson dateOk v = .ok tj ↔
      safeParseTasksJson dateOk v = .success tj) ∧
    (∀ v t, safeParseTask dateOk v = .success t → TaskFieldBounds t) ∧
    (∀ v tj, safeParseTasksJson dateOk v = .success tj →
      1 ≤ tj.tasks.length ∧ tj.tasks.length ≤ 200 ∧
      ∀ t ∈ tj.tasks, TaskFieldBounds t) := by
  refine ⟨?_, ?_, ?_, ?_, ?_⟩
  · intro v
    cases hs : safeParseTask dateOk v with
    | success t => exact Or.inl ⟨t, rfl⟩
    | failure is => exact Or.inr ⟨is, rfl⟩
  · intro v t
    unfold parseTask
    cases hs : safeParseTask dateOk v with
    | success u => simp
    | failure e => simp
  · intro v tj
    unfold parseTasksJson
    cases hs : safeParseTasksJson dateOk v with
    | success u => simp
    | failure e => simp
  · intro v t hs
    unfold safeParseTask at hs
    cases hc : checkTask dateOk v with
    | ok u =>
      rw [hc] at hs
      simp only [SafeResult.success.injEq] at hs
      subst hs
      exact checkTask_ok dateOk v u hc
    | error e => rw [hc] at hs; simp at hs
  · intro v tj hs
    unfold safeParseTasksJson at hs
    cases hc : checkTasksJson dateOk v with
    | ok u =>
      rw [hc] at hs
      simp only [SafeResult.success.injEq] at hs
      subst hs
      exact checkTasksJson_ok dateOk v u hc
    | error e => rw [hc] at hs; simp at hs

theorem synthesize_ids_witness :
    ((none : Option Nat).getD 20 ≤ 999) ∧
    ((∀ t ∈ generateTasksFromSections [⟨chars "PRD", [], 0⟩] none,
        idPattern t.id = true) ∧
      (idsOf (generateTasksFromSections [⟨chars "PRD", [], 0⟩] none)).Nodup ∧
      detectCycles (generateTasksFromSections [⟨chars "PRD", [], 0⟩] none) =
        ⟨false, none⟩) :=
  ⟨by decide, synthesize_ids_unique_acyclic [⟨chars "PRD", [], 0⟩] none (by decide)⟩

end TaskMaker
